import Mathlib

/-!
# cached-proxy: a shallow embedding of `main.go`

The request handler `handleAll` and its helpers `makeCacheFilePath`,
`httpHeaderToString` and `httpHeaderFromString` are embedded as pure functions.
The file system, the upstream HTTP client and the request constructor are
explicit inputs.  The Go library routines the handler relies on (`path.Join`,
`path.Clean`, `filepath.Join` on a slash-separated system, `strings.Replace`,
`strings.TrimPrefix`, `encoding/json` at type `map[string][]string`, and the
UTF-8 routines of `unicode/utf8`) are modelled next to the code that calls them.
-/

namespace CachedProxy

/-! ## Strings -/

/-- A Go string is a sequence of bytes; a byte is a natural number below 256. -/
abbrev Bytes := List Nat

/-- The bytes of an ASCII literal. -/
def ascii (s : String) : Bytes := s.data.map Char.toNat

/-- Go `strings.TrimPrefix(s, "/")`. -/
def trimPrefixSlash : Bytes → Bytes
  | [] => []
  | c :: rest => if c = 47 then rest else c :: rest

/-- Go `strings.ReplaceAll(s, "/", "-")`. -/
def replaceAllSlashDash (s : Bytes) : Bytes :=
  s.map (fun c => if c = 47 then 45 else c)

/-- Go `strings.Replace(s, "/", "//", 1)`: only the first slash is doubled. -/
def replaceFirstSlash : Bytes → Bytes
  | [] => []
  | c :: rest => if c = 47 then 47 :: 47 :: rest else c :: replaceFirstSlash rest

/-! ## `path.Clean`, `path.Join`, `filepath.Join` -/

/-- The test `r+1 == n || path[r+1] == '/'` of `path.Clean`, on the unread input. -/
def atElemEnd : Bytes → Bool
  | [] => true
  | c :: _ => decide (c = 47)

/-- The backtracking of `path.Clean` on a `..` element.  The output buffer is held
reversed, so its head is the last byte written: `out.w--`, then
`for out.w > dotdot && out.index(out.w) != '/' { out.w-- }`. -/
def backUp (dotdot : Nat) : Bytes → Bytes
  | [] => []
  | x :: w => if dotdot < w.length ∧ x ≠ 47 then backUp dotdot w else w

/-- The separator `path.Clean` writes before a real path element:
`if rooted && out.w != 1 || !rooted && out.w != 0 { out.append('/') }`. -/
def addSep (rooted : Bool) (w : Bytes) : Bytes :=
  if (rooted = true ∧ w.length ≠ 1) ∨ (rooted = false ∧ w.length ≠ 0) then 47 :: w else w

/-- Where the loop of `path.Clean` stands: at the head of its `switch`, inside
the inner loop that copies a real path element, or between the two dots of a
`..` element (the `r += 2` of that case is taken one byte at a time). -/
inductive CleanMode where
  | atSwitch
  | inElem
  | secondDot
  deriving DecidableEq, Repr

/-- The test of the `..` case of `path.Clean` on the input after the first dot:
`path[r+1] == '.' && (r+2 == n || path[r+2] == '/')`. -/
def isDotDotTail : Bytes → Bool
  | [] => false
  | d :: rest2 => decide (d = 46) && atElemEnd rest2

/-- The main loop of `path.Clean`.  The state is the reversed output buffer `w`
and the index `dotdot`. -/
def cleanLoop (rooted : Bool) : CleanMode → Bytes → Bytes → Nat → Bytes × Nat
  | _, [], w, dotdot => (w, dotdot)
  | .inElem, c :: rest, w, dotdot =>
    if c = 47 then cleanLoop rooted .atSwitch rest w dotdot
    else cleanLoop rooted .inElem rest (c :: w) dotdot
  | .secondDot, _ :: rest, w, dotdot =>
    -- .. element: remove to last /
    if dotdot < w.length then
      cleanLoop rooted .atSwitch rest (backUp dotdot w) dotdot
    else if rooted = false then
      let w2 := 46 :: 46 :: (if 0 < w.length then 47 :: w else w)
      cleanLoop rooted .atSwitch rest w2 w2.length
    else
      cleanLoop rooted .atSwitch rest w dotdot
  | .atSwitch, c :: rest, w, dotdot =>
    if c = 47 then
      -- empty path element
      cleanLoop rooted .atSwitch rest w dotdot
    else if c = 46 ∧ atElemEnd rest = true then
      -- . element
      cleanLoop rooted .atSwitch rest w dotdot
    else if c = 46 ∧ isDotDotTail rest = true then
      cleanLoop rooted .secondDot rest w dotdot
    else
      -- real path element
      cleanLoop rooted .inElem rest (c :: addSep rooted w) dotdot

/-- Go `path.Clean` (and `filepath.Clean` where the separator is a slash). -/
def Clean (path : Bytes) : Bytes :=
  match path with
  | [] => [46]
  | c :: rest =>
    let st := if c = 47 then cleanLoop true .atSwitch rest [47] 1
              else cleanLoop false .atSwitch (c :: rest) [] 0
    if st.1 = [] then [46] else st.1.reverse

/-- Go `path.Join(a, b)`: the result is empty when both elements are; otherwise
the elements from the first non-empty one on are joined by slashes (an element is
appended `if len(buf) > 0 || e != ""`, after a slash `if len(buf) > 0`) and the
buffer is cleaned. -/
def pathJoin (a b : Bytes) : Bytes :=
  if a.length + b.length = 0 then []
  else if a = [] then Clean b
  else Clean (a ++ 47 :: b)

/-- Go `filepath.Join(a, b)` on a system whose separator is a slash: leading
empty elements are dropped, the remaining ones are joined by the separator and
cleaned. -/
def filepathJoin (a b : Bytes) : Bytes :=
  if a ≠ [] then Clean (a ++ 47 :: b)
  else if b ≠ [] then Clean b
  else []

/-! ## Cache key derivation -/

/-- The variable `cacheExt`, `".json"`. -/
def cacheExt : Bytes := [46, 106, 115, 111, 110]

/-- The literal `".header"`. -/
def headerExt : Bytes := [46, 104, 101, 97, 100, 101, 114]

/-- The file name `makeCacheFilePath` joins to the cache directory (`escapePath`
after the suffix is appended). -/
def cacheFileName (urlPath : Bytes) (forHeader : Bool) : Bytes :=
  let urlPath := trimPrefixSlash urlPath
  let escapePath := replaceAllSlashDash urlPath
  if forHeader then escapePath ++ headerExt else escapePath ++ cacheExt

/-- Go `makeCacheFilePath`. -/
def makeCacheFilePath (cachePath : Bytes) (urlPath : Bytes) (forHeader : Bool) : Bytes :=
  filepathJoin cachePath (cacheFileName urlPath forHeader)


/-! ## `unicode/utf8` -/

/-- Go `utf8.RuneError`, U+FFFD. -/
def RuneError : Nat := 0xFFFD

/-- Go `utf8.DecodeRune`: the first rune of `p` and its width in bytes.  An
invalid encoding gives `(RuneError, 1)`, the empty input `(RuneError, 0)`.  The
masks and shifts of the Go code are written with `%` and `*`. -/
def decodeRune (p : Bytes) : Nat × Nat :=
  match p with
  | [] => (RuneError, 0)
  | p0 :: rest =>
    if p0 < 0x80 then (p0, 1)
    else if p0 < 0xC2 ∨ 0xF4 < p0 then (RuneError, 1)
    else
      -- the range accepted for the second byte
      let lo := if p0 = 0xE0 then 0xA0 else if p0 = 0xF0 then 0x90 else 0x80
      let hi := if p0 = 0xED then 0x9F else if p0 = 0xF4 then 0x8F else 0xBF
      match rest with
      | [] => (RuneError, 1)
      | b1 :: rest1 =>
        if b1 < lo ∨ hi < b1 then (RuneError, 1)
        else if p0 < 0xE0 then ((p0 % 32) * 64 + b1 % 64, 2)
        else
          match rest1 with
          | [] => (RuneError, 1)
          | b2 :: rest2 =>
            if b2 < 0x80 ∨ 0xBF < b2 then (RuneError, 1)
            else if p0 < 0xF0 then ((p0 % 16) * 4096 + (b1 % 64) * 64 + b2 % 64, 3)
            else
              match rest2 with
              | [] => (RuneError, 1)
              | b3 :: _ =>
                if b3 < 0x80 ∨ 0xBF < b3 then (RuneError, 1)
                else ((p0 % 8) * 262144 + (b1 % 64) * 4096 + (b2 % 64) * 64 + b3 % 64, 4)

/-- Go `utf8.EncodeRune` / `utf8.AppendRune`: surrogates and values above
U+10FFFF are written as U+FFFD. -/
def encodeRune (r : Nat) : Bytes :=
  if r ≤ 0x7F then [r]
  else if r ≤ 0x7FF then [0xC0 + r / 64, 0x80 + r % 64]
  else if 0x10FFFF < r ∨ (0xD800 ≤ r ∧ r ≤ 0xDFFF) then [0xEF, 0xBF, 0xBD]
  else if r ≤ 0xFFFF then [0xE0 + r / 4096, 0x80 + (r / 64) % 64, 0x80 + r % 64]
  else [0xF0 + r / 262144, 0x80 + (r / 4096) % 64, 0x80 + (r / 64) % 64, 0x80 + r % 64]

/-- The UTF-8 encoding of a sequence of Unicode scalar values. -/
def utf8 (s : List Char) : Bytes :=
  s.flatMap (fun c => encodeRune c.toNat)

/-! ## `encoding/json`: `Marshal` at type `map[string][]string` -/

/-- A Go `[]string`: `none` is the nil slice. -/
abbrev Slice := Option (List Bytes)

/-- A Go `http.Header`, that is `map[string][]string`, as an association list
with pairwise distinct keys.  The nil map is not told apart from the empty one. -/
abbrev Header := List (Bytes × Slice)

/-- Go `htmlSafeSet`: the ASCII bytes `Marshal` copies unescaped. -/
def htmlSafe (b : Nat) : Bool :=
  decide (0x20 ≤ b ∧ b < 0x80 ∧ b ≠ 34 ∧ b ≠ 38 ∧ b ≠ 60 ∧ b ≠ 62 ∧ b ≠ 92)

/-- The table `hex = "0123456789abcdef"`. -/
def hexDigit (n : Nat) : Nat := if n < 10 then 48 + n else 87 + n

/-- The escape `appendString` writes for an ASCII byte outside `htmlSafeSet`.
(Releases before Go 1.22 write backspace and form feed as `\\u0008` and `\\u000c`,
which decode to the same bytes.) -/
def escapeByte (b : Nat) : Bytes :=
  if b = 92 ∨ b = 34 then [92, b]
  else if b = 8 then [92, 98]
  else if b = 12 then [92, 102]
  else if b = 10 then [92, 110]
  else if b = 13 then [92, 114]
  else if b = 9 then [92, 116]
  else [92, 117, 48, 48, hexDigit (b / 16), hexDigit (b % 16)]

/-- The loop of `appendString` (with `escapeHTML` set, as `Marshal` does).  The
fuel bounds the number of iterations; every iteration consumes a byte. -/
def appendStringLoop : Nat → Bytes → Bytes
  | 0, _ => []
  | _, [] => []
  | fuel + 1, b :: rest =>
    if b < 0x80 then
      if htmlSafe b = true then b :: appendStringLoop fuel rest
      else escapeByte b ++ appendStringLoop fuel rest
    else
      let c := (decodeRune (b :: rest)).1
      let size := (decodeRune (b :: rest)).2
      if c = RuneError ∧ size = 1 then
        -- invalid UTF-8: \ufffd
        [92, 117, 102, 102, 102, 100] ++ appendStringLoop fuel rest
      else if c = 0x2028 ∨ c = 0x2029 then
        [92, 117, 50, 48, 50, hexDigit (c % 16)] ++ appendStringLoop fuel ((b :: rest).drop size)
      else
        (b :: rest).take size ++ appendStringLoop fuel ((b :: rest).drop size)

/-- Go `appendString`: the JSON string literal for `s`. -/
def appendString (s : Bytes) : Bytes :=
  34 :: (appendStringLoop s.length s ++ [34])

/-- The elements of an array or the members of an object, separated by commas. -/
def joinComma : List Bytes → Bytes
  | [] => []
  | [x] => x
  | x :: y :: rest => x ++ 44 :: joinComma (y :: rest)

/-- The encoding of a `[]string`: `null` for the nil slice, else an array. -/
def encodeSlice : Slice → Bytes
  | none => [110, 117, 108, 108]
  | some vs => 91 :: (joinComma (vs.map appendString) ++ [93])

/-- The encoding of one map entry, `"key":value`. -/
def encodeMember (kv : Bytes × Slice) : Bytes :=
  appendString kv.1 ++ 58 :: encodeSlice kv.2

/-- Bytewise lexicographic order, `strings.Compare(a, b) <= 0`. -/
def bytesLE : Bytes → Bytes → Bool
  | [], _ => true
  | _ :: _, [] => false
  | a :: as, b :: bs => if a < b then true else if b < a then false else bytesLE as bs

/-- The map entries in the order `Marshal` writes them, sorted by key. -/
def sortedEntries (h : Header) : Header :=
  h.insertionSort (fun x y => bytesLE x.1 y.1 = true)

/-- Go `json.Marshal` at type `map[string][]string`. -/
def Marshal (h : Header) : Bytes :=
  123 :: (joinComma ((sortedEntries h).map encodeMember) ++ [125])

/-- Go `httpHeaderToString`. -/
def httpHeaderToString (header : Header) : Bytes :=
  Marshal header

/-! ## `encoding/json`: `Unmarshal` at type `map[string][]string`

`Unmarshal` first checks the whole input against the JSON grammar and touches
nothing when that fails.  It then stores the value into the target, recording
the first type mismatch and carrying on.  The model parses the input to a JSON
value (string literals already unquoted) and stores that value. -/

/-- A JSON value. -/
inductive JVal where
  | null
  | bool (b : Bool)
  | num
  | str (s : Bytes)
  | arr (elems : List JVal)
  | obj (members : List (Bytes × JVal))

/-- The errors of `Unmarshal`: `*json.SyntaxError` and `*json.UnmarshalTypeError`. -/
inductive JErr where
  | syntaxError
  | typeError
  deriving DecidableEq, Repr

/-- JSON white space: space, tab, carriage return, line feed. -/
def isSpace (c : Nat) : Bool := decide (c = 32 ∨ c = 9 ∨ c = 13 ∨ c = 10)

/-- Skips leading white space. -/
def skipSpace : Bytes → Bytes
  | [] => []
  | c :: rest => if isSpace c = true then skipSpace rest else c :: rest

/-- The value of a hexadecimal digit. -/
def hexVal (c : Nat) : Option Nat :=
  if 48 ≤ c ∧ c ≤ 57 then some (c - 48)
  else if 97 ≤ c ∧ c ≤ 102 then some (c - 87)
  else if 65 ≤ c ∧ c ≤ 70 then some (c - 55)
  else none

/-- Go `getu4`: the rune of a leading `\uXXXX`, with the input after it. -/
def getu4 (s : Bytes) : Option (Nat × Bytes) :=
  match s with
  | e :: u :: a :: b :: c :: d :: rest =>
    if e = 92 ∧ u = 117 then
      match hexVal a, hexVal b, hexVal c, hexVal d with
      | some x, some y, some z, some t => some (x * 4096 + y * 256 + z * 16 + t, rest)
      | _, _, _, _ => none
    else none
  | _ => none

/-- The byte a one-letter escape stands for. -/
def unescape (e : Nat) : Option Nat :=
  if e = 34 ∨ e = 92 ∨ e = 47 then some e
  else if e = 98 then some 8
  else if e = 102 then some 12
  else if e = 110 then some 10
  else if e = 114 then some 13
  else if e = 116 then some 9
  else none

/-- Puts `pre` before the unquoted text of a parse result. -/
def prepend (pre : Bytes) : Option (Bytes × Bytes) → Option (Bytes × Bytes)
  | none => none
  | some (s, rest) => some (pre ++ s, rest)

/-- A string literal after its opening quote: the unquoted text (Go
`unquoteBytes`: escapes resolved, invalid UTF-8 and lone surrogates replaced by
U+FFFD) and the input after the closing quote.  `none` where the scanner reports
a syntax error: a control character, a bad escape, or no closing quote. -/
def parseStringBody : Nat → Bytes → Option (Bytes × Bytes)
  | 0, _ => none
  | _, [] => none
  | fuel + 1, c :: rest =>
    if c = 34 then some ([], rest)
    else if c = 92 then
      match rest with
      | [] => none
      | e :: rest2 =>
        if e = 117 then
          match getu4 (c :: e :: rest2) with
          | none => none
          | some (rr, rest3) =>
            if 0xD800 ≤ rr ∧ rr < 0xE000 then
              -- a surrogate: a valid pair is one rune, anything else U+FFFD
              match getu4 rest3 with
              | some (rr1, rest4) =>
                if rr < 0xDC00 ∧ 0xDC00 ≤ rr1 ∧ rr1 < 0xE000 then
                  prepend (encodeRune ((rr - 0xD800) * 1024 + (rr1 - 0xDC00) + 0x10000))
                    (parseStringBody fuel rest4)
                else prepend (encodeRune RuneError) (parseStringBody fuel rest3)
              | none => prepend (encodeRune RuneError) (parseStringBody fuel rest3)
            else prepend (encodeRune rr) (parseStringBody fuel rest3)
        else
          match unescape e with
          | some x => prepend [x] (parseStringBody fuel rest2)
          | none => none
    else if c < 32 then none
    else if c < 0x80 then prepend [c] (parseStringBody fuel rest)
    else
      -- coerce to well-formed UTF-8
      prepend (encodeRune (decodeRune (c :: rest)).1)
        (parseStringBody fuel ((c :: rest).drop (decodeRune (c :: rest)).2))

/-- A string literal after its opening quote. -/
def parseString (s : Bytes) : Option (Bytes × Bytes) :=
  parseStringBody s.length s

/-- An ASCII digit. -/
def isDigit (c : Nat) : Bool := decide (48 ≤ c ∧ c ≤ 57)

/-- Skips leading digits. -/
def skipDigits : Bytes → Bytes
  | [] => []
  | c :: rest => if isDigit c = true then skipDigits rest else c :: rest

/-- One or more digits. -/
def digits1 : Bytes → Option Bytes
  | [] => none
  | c :: rest => if isDigit c = true then some (skipDigits rest) else none

/-- The exponent part of a number, if there is one. -/
def parseExp : Bytes → Option Bytes
  | [] => some []
  | c :: rest =>
    if c = 101 ∨ c = 69 then
      match rest with
      | [] => none
      | d :: rest2 => if d = 43 ∨ d = 45 then digits1 rest2 else digits1 (d :: rest2)
    else some (c :: rest)

/-- The fraction and exponent parts of a number, if there are any. -/
def parseFrac : Bytes → Option Bytes
  | [] => some []
  | c :: rest =>
    if c = 46 then
      match digits1 rest with
      | none => none
      | some rest2 => parseExp rest2
    else parseExp (c :: rest)

/-- The integer part of a number after its sign, then the rest of the number. -/
def parseInt : Bytes → Option Bytes
  | [] => none
  | c :: rest =>
    if c = 48 then parseFrac rest
    else if isDigit c = true then parseFrac (skipDigits rest)
    else none

/-- A JSON number: the input after it. -/
def parseNumber : Bytes → Option Bytes
  | [] => none
  | c :: rest => if c = 45 then parseInt rest else parseInt (c :: rest)

/-- The input after the literal `lit`, when the input starts with it. -/
def parseLit : Bytes → Bytes → Option Bytes
  | [], s => some s
  | _ :: _, [] => none
  | l :: lit, c :: s => if l = c then parseLit lit s else none

/-- Go `maxNestingDepth`. -/
def maxNestingDepth : Nat := 10000

mutual
/-- A JSON value at the head of the input (white space already skipped), and the
input after it.  `depth` counts the enclosing arrays and objects. -/
def parseValue : Nat → Nat → Bytes → Option (JVal × Bytes)
  | 0, _, _ => none
  | _, _, [] => none
  | fuel + 1, depth, c :: rest =>
    if c = 123 then
      if maxNestingDepth ≤ depth then none
      else
        match skipSpace rest with
        | [] => none
        | c2 :: rest2 =>
          if c2 = 125 then some (.obj [], rest2)
          else
            match parseMembers fuel (depth + 1) (c2 :: rest2) with
            | none => none
            | some (ms, rest3) => some (.obj ms, rest3)
    else if c = 91 then
      if maxNestingDepth ≤ depth then none
      else
        match skipSpace rest with
        | [] => none
        | c2 :: rest2 =>
          if c2 = 93 then some (.arr [], rest2)
          else
            match parseElems fuel (depth + 1) (c2 :: rest2) with
            | none => none
            | some (vs, rest3) => some (.arr vs, rest3)
    else if c = 34 then
      match parseString rest with
      | none => none
      | some (s, rest2) => some (.str s, rest2)
    else if c = 116 then
      match parseLit [114, 117, 101] rest with
      | none => none
      | some rest2 => some (.bool true, rest2)
    else if c = 102 then
      match parseLit [97, 108, 115, 101] rest with
      | none => none
      | some rest2 => some (.bool false, rest2)
    else if c = 110 then
      match parseLit [117, 108, 108] rest with
      | none => none
      | some rest2 => some (.null, rest2)
    else
      match parseNumber (c :: rest) with
      | none => none
      | some rest2 => some (.num, rest2)
/-- The elements of an array from the head of an element on, up to the closing
bracket. -/
def parseElems : Nat → Nat → Bytes → Option (List JVal × Bytes)
  | 0, _, _ => none
  | fuel + 1, depth, s =>
    match parseValue fuel depth s with
    | none => none
    | some (v, rest) =>
      match skipSpace rest with
      | [] => none
      | c :: rest2 =>
        if c = 44 then
          match parseElems fuel depth (skipSpace rest2) with
          | none => none
          | some (vs, rest3) => some (v :: vs, rest3)
        else if c = 93 then some ([v], rest2)
        else none
/-- The members of an object from the head of a key on, up to the closing brace. -/
def parseMembers : Nat → Nat → Bytes → Option (List (Bytes × JVal) × Bytes)
  | 0, _, _ => none
  | _, _, [] => none
  | fuel + 1, depth, c :: rest =>
    if c = 34 then
      match parseString rest with
      | none => none
      | some (k, rest2) =>
        match skipSpace rest2 with
        | [] => none
        | c2 :: rest3 =>
          if c2 = 58 then
            match parseValue fuel depth (skipSpace rest3) with
            | none => none
            | some (v, rest4) =>
              match skipSpace rest4 with
              | [] => none
              | c3 :: rest5 =>
                if c3 = 44 then
                  match parseMembers fuel depth (skipSpace rest5) with
                  | none => none
                  | some (ms, rest6) => some ((k, v) :: ms, rest6)
                else if c3 = 125 then some ([(k, v)], rest5)
                else none
          else none
    else none
end

/-- The whole input as one JSON value with white space around it; `none` is the
syntax error of `checkValid`. -/
def parseJSON (data : Bytes) : Option JVal :=
  match parseValue (data.length + 1) 0 (skipSpace data) with
  | none => none
  | some (v, rest) => if skipSpace rest = [] then some v else none

/-- Storing a JSON value into a `string`: the string and whether the value was of
the wrong type.  `null` leaves the string at its zero value. -/
def storeString : JVal → Bytes × Bool
  | .str s => (s, false)
  | .null => ([], false)
  | _ => ([], true)

/-- Storing a JSON value into a fresh `[]string`.  An array fills a slice element
by element, a mismatched element staying empty; `null` gives the nil slice; any
other value is a type mismatch and leaves the nil slice. -/
def storeSlice : JVal → Slice × Bool
  | .arr elems => (some (elems.map (fun v => (storeString v).1)),
      elems.any (fun v => (storeString v).2))
  | .null => (none, false)
  | _ => (none, true)

/-- Go `m[k] = v`. -/
def mapSet : Header → Bytes → Slice → Header
  | [], k, v => [(k, v)]
  | (k2, v2) :: m, k, v => if k2 = k then (k, v) :: m else (k2, v2) :: mapSet m k v

/-- Storing the members of a JSON object into the map, one after the other. -/
def storeMembers : List (Bytes × JVal) → Header → Header × Bool
  | [], m => (m, false)
  | (k, v) :: ms, m =>
    let r := storeMembers ms (mapSet m k (storeSlice v).1)
    (r.1, (storeSlice v).2 || r.2)

/-- Storing a JSON value into an allocated `map[string][]string`.  `null` sets the
map to nil; a value that is no object is a type mismatch and leaves the map. -/
def storeMap (v : JVal) (m : Header) : Header × Bool :=
  match v with
  | .obj members => storeMembers members m
  | .null => ([], false)
  | _ => (m, true)

/-- Go `json.Unmarshal(content, &header)` for `header` an allocated map: the map
afterwards and the error. -/
def Unmarshal (content : Bytes) (header : Header) : Header × Option JErr :=
  match parseJSON content with
  | none => (header, some .syntaxError)
  | some v =>
    let r := storeMap v header
    (r.1, if r.2 = true then some .typeError else none)

/-- Go `httpHeaderFromString`. -/
def httpHeaderFromString (content : Bytes) : Header × Option JErr :=
  let header : Header := []
  Unmarshal content header

/-! ## The request handler -/

/-- The cache directory: the content of each file that can be read, by name. -/
abbrev FS := Bytes → Option Bytes

/-- Go `ioutil.ReadFile`: `none` when the read fails. -/
def readFile (fs : FS) (name : Bytes) : Option Bytes := fs name

/-- Go `ioutil.WriteFile`.  Whether the write succeeds is an input; a failed
write is taken to leave the store as it was. -/
def writeFile (fs : FS) (name data : Bytes) (ok : Bool) : FS :=
  if ok = true then fun n => if n = name then some data else fs n else fs

/-- The fields of the inbound `*http.Request` that `handleAll` reads. -/
structure Request where
  method : Bytes
  path : Bytes
  rawQuery : Bytes
  header : Header
  body : Bytes

/-- The request handed to `client.Do`: method, target, the headers in the order
of the `Header.Add` calls, and the body (`none` for the nil reader). -/
structure UpstreamRequest where
  method : Bytes
  url : Bytes
  header : List (Bytes × Bytes)
  body : Option Bytes
  deriving DecidableEq

/-- The upstream response: its headers and the payload read from its body. -/
structure UpstreamResponse where
  header : Header
  payload : Bytes

/-- The surroundings of one call of the handler: whether `http.NewRequest`
fails (with its error text), what `client.Do` returns (the error text or the
response), and whether the two cache writes succeed. -/
structure World where
  newRequest : Bytes → Bytes → Option Bytes
  doRequest : UpstreamRequest → Except Bytes UpstreamResponse
  bodyWriteOk : Bool
  headerWriteOk : Bool

/-- What the handler writes to the `http.ResponseWriter`: the status (200 unless
`WriteHeader` is called), the `Header().Add` calls in order, and the body.
(`net/http` stores names in canonical case; header names are case-insensitive.) -/
structure Response where
  status : Nat
  header : List (Bytes × Bytes)
  body : Bytes
  deriving DecidableEq

/-- The header `x-src: from cached-proxy`. -/
def xSrc : Bytes × Bytes :=
  ([120, 45, 115, 114, 99],
   [102, 114, 111, 109, 32, 99, 97, 99, 104, 101, 100, 45, 112, 114, 111, 120, 121])

/-- The literal `"GET"`. -/
def methodGet : Bytes := [71, 69, 84]

/-- The target before the query is appended: `path.Join(upstreamHost, r.URL.Path)`
with its first slash doubled. -/
def joinedTarget (upstreamHost : Bytes) (urlPath : Bytes) : Bytes :=
  let upUrl := pathJoin upstreamHost urlPath
  replaceFirstSlash upUrl

/-- The variable `upUrl` of `handleAll` when the upstream request is built. -/
def upstreamTarget (upstreamHost : Bytes) (r : Request) : Bytes :=
  let upUrl := joinedTarget upstreamHost r.path
  if r.rawQuery ≠ [] then upUrl ++ 63 :: r.rawQuery else upUrl

/-- The calls `Add(k, v)` of the loops
`for k, vals := range h { for _, v := range vals { ... Add(k, v) } }`.  Go ranges
over a map in no fixed order; the order of the list stands for one such order.
The values under one name are taken in their stored order. -/
def addAll (h : Header) : List (Bytes × Bytes) :=
  h.flatMap (fun kv => (kv.2.getD []).map (fun v => (kv.1, v)))

/-- The upstream request `handleAll` builds from the inbound one. -/
def upstreamRequest (upstreamHost : Bytes) (r : Request) : UpstreamRequest :=
  { method := r.method
    url := upstreamTarget upstreamHost r
    header := addAll r.header
    body := if r.method ≠ methodGet then some r.body else none }

/-- Go `handleAll`: the response written and the cache directory afterwards. -/
def handleAll (upstreamHost : Bytes) (cachePath : Bytes) (cacheWrite : Bool)
    (env : World) (r : Request) (fs : FS) : Response × FS :=
  let upUrl := upstreamTarget upstreamHost r
  match env.newRequest r.method upUrl with
  | some err =>
    -- failed to create new request
    ({ status := 500, header := [], body := err }, fs)
  | none =>
    match env.doRequest (upstreamRequest upstreamHost r) with
    | .error err =>
      let cacheFile := makeCacheFilePath cachePath r.path false
      let cachedPayload := readFile fs cacheFile
      let cachedHeader := readFile fs (makeCacheFilePath cachePath r.path true)
      match cachedPayload with
      | none =>
        -- return none cached original error
        ({ status := 500, header := [], body := err }, fs)
      | some payload =>
        let added :=
          match cachedHeader with
          | none => []
          | some content =>
            let loaded := httpHeaderFromString content
            if loaded.2 ≠ none then addAll loaded.1 else []
        ({ status := 200, header := xSrc :: added, body := payload }, fs)
    | .ok upRes =>
      let resp : Response := { status := 200, header := [], body := upRes.payload }
      if cacheWrite = false then (resp, fs)
      else
        let cacheFile := makeCacheFilePath cachePath r.path false
        let fs1 := writeFile fs cacheFile upRes.payload env.bodyWriteOk
        let headerData := httpHeaderToString upRes.header
        let fs2 := writeFile fs1 (makeCacheFilePath cachePath r.path true) headerData
          env.headerWriteOk
        (resp, fs2)

/-- A path element that `path.Clean` keeps as it is: not empty, without a slash,
and neither `.` nor `..`. -/
def NormalElem (e : Bytes) : Prop :=
  e ≠ [] ∧ 47 ∉ e ∧ e ≠ [46] ∧ e ≠ [46, 46]

instance (e : Bytes) : Decidable (NormalElem e) := by
  unfold NormalElem; infer_instance

/-- The directory prefix that joining onto `root` puts before a file name. -/
def joinDir (root : Bytes) : Bytes :=
  match root with
  | [] => []
  | c :: rest =>
    if c = 47 then (addSep true (cleanLoop true .atSwitch rest [47] 1).1).reverse
    else (addSep false (cleanLoop false .atSwitch (c :: rest) [] 0).1).reverse

/-- Go `m[k]`: the value stored under `k`, if there is one. -/
def mapGet : Header → Bytes → Option Slice
  | [], _ => none
  | (k2, v) :: m, k => if k2 = k then some v else mapGet m k

/-! ## Notions used in the statements and proofs -/

/-- The request path whose elements are `segs`, each after one slash. -/
def pathOfSegments : List Bytes → Bytes
  | [] => []
  | e :: segs => 47 :: (e ++ pathOfSegments segs)

/-- A Unicode scalar value: a code point that is no surrogate. -/
def IsScalar (n : Nat) : Prop := n < 0xD800 ∨ (0xDFFF < n ∧ n < 0x110000)

/-- Valid UTF-8: the encoding of some sequence of Unicode scalar values. -/
def IsUTF8 (s : Bytes) : Prop := ∃ cs : List Char, s = utf8 cs

/-- A header collection whose names and values are all valid UTF-8. -/
def HeaderUTF8 (h : Header) : Prop :=
  ∀ kv ∈ h, IsUTF8 kv.1 ∧ ∀ vs, kv.2 = some vs → ∀ v ∈ vs, IsUTF8 v

/-- What `appendString` writes for one Unicode scalar value. -/
def encodeChar (n : Nat) : Bytes :=
  if n < 0x80 then (if htmlSafe n = true then [n] else escapeByte n)
  else if n = 0x2028 ∨ n = 0x2029 then [92, 117, 50, 48, 50, hexDigit (n % 16)]
  else encodeRune n

/-- The text between the quotes that `appendString` writes for a sequence of
Unicode scalar values. -/
def encodeChars : List Char → Bytes
  | [] => []
  | c :: cs => encodeChar c.toNat ++ encodeChars cs

/-- The JSON value `Marshal` writes for a `[]string`. -/
def sliceVal : Slice → JVal
  | none => .null
  | some vs => .arr (vs.map .str)

/-- The JSON members `Marshal` writes for the entries `ms`. -/
def memberVals (ms : Header) : List (Bytes × JVal) :=
  ms.map (fun kv => (kv.1, sliceVal kv.2))

/-- The fuel that parsing the members written for `ms` takes. -/
def membersFuel : Header → Nat
  | [] => 0
  | kv :: ms => (kv.2.getD []).length + 3 + membersFuel ms

/-! ## Example inputs -/

/-- A world in which the upstream request is built and the upstream call fails
with the text `down`. -/
def worldDown : World :=
  { newRequest := fun _ _ => none
    doRequest := fun _ => .error (ascii "down")
    bodyWriteOk := true
    headerWriteOk := true }

/-- A world in which the upstream call returns the header `X-Rate: 10` and the
given payload, and both cache writes succeed. -/
def worldUp (payload : Bytes) : World :=
  { newRequest := fun _ _ => none
    doRequest := fun _ => .ok { header := [(ascii "X-Rate", some [ascii "10"])], payload := payload }
    bodyWriteOk := true
    headerWriteOk := true }

/-- The request `GET /v1/items?id=5` without headers or body. -/
def getItems : Request :=
  { method := methodGet, path := ascii "/v1/items", rawQuery := ascii "id=5", header := [],
    body := [] }

/-- The empty cache directory. -/
def emptyFS : FS := fun _ => none

/-- A cache directory that holds a header artifact for `/v1/items` and no body
artifact. -/
def headerOnlyFS : FS :=
  fun n => if n = ascii "data/v1-items.header" then some (ascii "[]") else none

/-- A cache directory that holds a body artifact for `/v1/items`. -/
def bodyOnlyFS : FS :=
  fun n => if n = ascii "data/v1-items.json" then some (ascii "old") else none

/-- The payload `{"id":5}`. -/
def payloadId5 : Bytes := ascii "\x7b\"id\":5\x7d"

/-- The header artifact `{"X-Rate":["10"]}`. -/
def artifactXRate : Bytes := ascii "\x7b\"X-Rate\":[\"10\"]\x7d"

/-- The header artifact `{"A":["x"],"B":"y"}`: valid JSON whose member `B` is a
string where an array of strings is expected. -/
def artifactMistyped : Bytes := ascii "\x7b\"A\":[\"x\"],\"B\":\"y\"\x7d"

/-- A cache directory that holds the body artifact `{"id":5}` and the given
header artifact for `/v1/items`. -/
def cachedFS (headerArtifact : Bytes) : FS :=
  fun n =>
    if n = ascii "data/v1-items.json" then some payloadId5
    else if n = ascii "data/v1-items.header" then some headerArtifact
    else none

/-- A header collection with one value that is no valid UTF-8: the byte `0xff`. -/
def headerLatin1 : Header := [(ascii "X", some [[0xff]])]

/-- A header collection with repeated values, an empty list and a nil list. -/
def headerSample : Header :=
  [(ascii "X-Rate", some [ascii "10", ascii "<10>"]), (ascii "Set-Cookie", some []),
   (ascii "Age", none)]

/-! ## The library models on known values -/

/-- The model of `path.Clean` on cases from the table of the Go test suite. -/
theorem Clean_known_values :
    Clean (ascii "") = ascii "." ∧ Clean (ascii "abc/def") = ascii "abc/def"
      ∧ Clean (ascii "../../abc") = ascii "../../abc" ∧ Clean (ascii "/") = ascii "/"
      ∧ Clean (ascii "abc/def/") = ascii "abc/def" ∧ Clean (ascii "./") = ascii "."
      ∧ Clean (ascii "../../") = ascii "../.." ∧ Clean (ascii "abc//def//ghi") = ascii "abc/def/ghi"
      ∧ Clean (ascii "///abc") = ascii "/abc" ∧ Clean (ascii "//abc//") = ascii "/abc"
      ∧ Clean (ascii "abc/./def") = ascii "abc/def" ∧ Clean (ascii "/./abc/def") = ascii "/abc/def"
      ∧ Clean (ascii "abc/.") = ascii "abc"
      ∧ Clean (ascii "abc/def/ghi/../jkl") = ascii "abc/def/jkl"
      ∧ Clean (ascii "abc/def/../ghi/../jkl") = ascii "abc/jkl"
      ∧ Clean (ascii "abc/def/../..") = ascii "." ∧ Clean (ascii "/abc/def/../..") = ascii "/"
      ∧ Clean (ascii "abc/def/../../..") = ascii ".."
      ∧ Clean (ascii "/abc/def/../../..") = ascii "/"
      ∧ Clean (ascii "abc/def/../../../ghi/jkl/../../../mno") = ascii "../../mno"
      ∧ Clean (ascii "abc/./../def") = ascii "def" ∧ Clean (ascii "abc//./../def") = ascii "def"
      ∧ Clean (ascii "abc/../../././../def") = ascii "../../def" := by
  decide

/-- The models of `path.Join`, the slash doubling and `makeCacheFilePath` on the
request `/v1/items`. -/
theorem target_and_cache_files_known_values :
    pathJoin (ascii "http://up") (ascii "/v1/items") = ascii "http:/up/v1/items"
      ∧ joinedTarget (ascii "http://up") (ascii "/v1/items") = ascii "http://up/v1/items"
      ∧ upstreamTarget (ascii "http://up") getItems = ascii "http://up/v1/items?id=5"
      ∧ makeCacheFilePath (ascii "data") (ascii "/v1/items") false = ascii "data/v1-items.json"
      ∧ makeCacheFilePath (ascii "data") (ascii "/v1/items") true = ascii "data/v1-items.header"
      ∧ makeCacheFilePath (ascii "data") (ascii "/") false = ascii "data/.json"
      ∧ makeCacheFilePath (ascii "/var/cache/") (ascii "/../../etc/passwd") false
        = ascii "/var/cache/..-..-etc-passwd.json" := by
  decide

/-- The model of `json.Marshal` on a header collection with a nil list, an empty
list and a value that needs escaping. -/
theorem Marshal_known_value :
    httpHeaderToString
        [(ascii "X-Rate", some [ascii "10", ascii "<a>\n"]), (ascii "A", none), (ascii "B", some [])]
      = ascii "\x7b\"A\":null,\"B\":[],\"X-Rate\":[\"10\",\"\\u003ca\\u003e\\n\"]\x7d" := by
  decide

/-- The model of `json.Unmarshal` on valid input, on a type mismatch (the map is
filled as far as possible and an error is returned), and on invalid JSON (the
map is left empty). -/
theorem Unmarshal_known_values :
    httpHeaderFromString (ascii "\x7b\"A\":null,\"B\":[],\"X-Rate\":[\"10\",\"\\u003ca\\u003e\\n\"]\x7d")
        = ([(ascii "A", none), (ascii "B", some []),
            (ascii "X-Rate", some [ascii "10", ascii "<a>\n"])], none)
      ∧ httpHeaderFromString (ascii " \x7b \"A\" : [ \"x\" , -1.5e+3, true, [[]], null ] \x7d ")
        = ([(ascii "A", some [ascii "x", [], [], [], []])], some .typeError)
      ∧ httpHeaderFromString (ascii "\x7b\"A\":[\"x\"],\"A\":[\"y\"]\x7d")
        = ([(ascii "A", some [ascii "y"])], none)
      ∧ httpHeaderFromString (ascii "\x7b\"A\":[\"\\ud83d\\ude00\"]\x7d")
        = ([(ascii "A", some [[0xF0, 0x9F, 0x98, 0x80]])], none)
      ∧ httpHeaderFromString (ascii "null") = ([], none)
      ∧ httpHeaderFromString (ascii "[\"x\"]") = ([], some .typeError)
      ∧ httpHeaderFromString (ascii "\x7b\"A\":[\"x\"],\"B\":\"y\"") = ([], some .syntaxError)
      ∧ httpHeaderFromString (ascii "\x7b\"A\":[\"x\",]\x7d") = ([], some .syntaxError)
      ∧ httpHeaderFromString (ascii "\x7b\"A\":[01]\x7d") = ([], some .syntaxError)
      ∧ httpHeaderFromString (ascii "") = ([], some .syntaxError) := by
  and_intros <;> decide

/-- The UTF-8 model on a text with characters of one to four bytes. -/
theorem utf8_known_value :
    utf8 ("a\u00e9\u20ac".data ++ [Char.ofNat 0x1F600])
      = [0x61, 0xC3, 0xA9, 0xE2, 0x82, 0xAC, 0xF0, 0x9F, 0x98, 0x80] := by
  decide

/-! ## Lemmas on `path.Clean` -/

theorem atElemEnd_append_slash (a rest : Bytes) :
    atElemEnd (a ++ 47 :: rest) = atElemEnd a := by
  cases a <;> simp [atElemEnd]

theorem isDotDotTail_append_slash (a rest : Bytes) :
    isDotDotTail (a ++ 47 :: rest) = isDotDotTail a := by
  cases a with
  | nil => simp [isDotDotTail]
  | cons d a2 => simp [isDotDotTail, atElemEnd_append_slash]

theorem cleanLoop_inElem_copy (r : Bool) (e rest w : Bytes) (dd : Nat) (h : 47 ∉ e) :
    cleanLoop r .inElem (e ++ rest) w dd = cleanLoop r .inElem rest (e.reverse ++ w) dd := by
  induction e generalizing w with
  | nil => simp
  | cons c e ih =>
    simp only [List.mem_cons, not_or] at h
    have hc : c ≠ 47 := fun hc => h.1 hc.symm
    simp [cleanLoop, hc, ih (c :: w) h.2]

theorem cleanLoop_normalElem (r : Bool) (e rest w : Bytes) (dd : Nat)
    (he : NormalElem e) :
    cleanLoop r .atSwitch (e ++ rest) w dd
      = cleanLoop r .inElem rest (e.reverse ++ addSep r w) dd := by
  obtain ⟨hne, hslash, hdot, hdotdot⟩ := he
  cases e with
  | nil => exact absurd rfl hne
  | cons c e =>
    simp only [List.mem_cons, not_or] at hslash
    have hc : c ≠ 47 := fun hc => hslash.1 hc.symm
    have h1 : ¬ (c = 46 ∧ atElemEnd (e ++ rest) = true) := by
      rintro ⟨rfl, h⟩
      cases e with
      | nil => exact hdot rfl
      | cons d e => 
        simp only [List.mem_cons, not_or] at hslash
        simp [atElemEnd] at h
        exact hslash.2.1 h.symm
    have h2 : ¬ (c = 46 ∧ isDotDotTail (e ++ rest) = true) := by
      rintro ⟨rfl, h⟩
      cases e with
      | nil => exact hdot rfl
      | cons d e =>
        simp only [List.cons_append, isDotDotTail, Bool.and_eq_true, decide_eq_true_eq] at h
        obtain ⟨rfl, h⟩ := h
        cases e with
        | nil => exact hdotdot rfl
        | cons x e =>
          simp only [List.mem_cons, not_or] at hslash
          simp [atElemEnd] at h
          exact hslash.2.2.1 h.symm
    rw [List.cons_append, cleanLoop]
    simp only [hc, h1, h2, if_false]
    rw [cleanLoop_inElem_copy r e rest _ dd hslash.2]
    simp

theorem cleanLoop_append_slash (r : Bool) (rest : Bytes) :
    ∀ (a : Bytes) (m : CleanMode) (w : Bytes) (dd : Nat), (m = .secondDot → a ≠ []) →
      cleanLoop r m (a ++ 47 :: rest) w dd
        = cleanLoop r .atSwitch rest (cleanLoop r m a w dd).1 (cleanLoop r m a w dd).2 := by
  intro a
  induction a with
  | nil =>
    intro m w dd hm
    cases m with
    | atSwitch => simp [cleanLoop]
    | inElem => simp [cleanLoop]
    | secondDot => exact absurd rfl (hm rfl)
  | cons c a ih =>
    intro m w dd _
    cases m with
    | inElem =>
      simp only [List.cons_append, cleanLoop]
      split
      · exact ih .atSwitch _ _ (by simp)
      · exact ih .inElem _ _ (by simp)
    | secondDot =>
      simp only [List.cons_append, cleanLoop]
      split
      · exact ih .atSwitch _ _ (by simp)
      · split
        · exact ih .atSwitch _ _ (by simp)
        · exact ih .atSwitch _ _ (by simp)
    | atSwitch =>
      simp only [List.cons_append, cleanLoop, List.append_eq, atElemEnd_append_slash,
        isDotDotTail_append_slash]
      split
      · exact ih .atSwitch _ _ (by simp)
      · split
        · exact ih .atSwitch _ _ (by simp)
        · split
          · rename_i h
            refine ih .secondDot _ _ (fun _ => ?_)
            rintro rfl
            simp [isDotDotTail] at h
          · exact ih .inElem _ _ (by simp)

theorem Clean_normalElem (e : Bytes) (he : NormalElem e) : Clean e = e := by
  have h := cleanLoop_normalElem false e [] [] 0 he
  obtain ⟨hne, hslash, _, _⟩ := he
  cases e with
  | nil => exact absurd rfl hne
  | cons c e =>
    simp only [List.mem_cons, not_or] at hslash
    have hc : c ≠ 47 := fun hc => hslash.1 hc.symm
    simp only [List.append_nil] at h
    simp only [Clean, hc, if_false]
    rw [h]
    simp [cleanLoop, addSep]

theorem filepathJoin_normalElem (root e : Bytes) (he : NormalElem e) :
    filepathJoin root e = joinDir root ++ e := by
  cases root with
  | nil =>
    have hne : e ≠ [] := he.1
    simp [filepathJoin, hne, joinDir, Clean_normalElem e he]
  | cons c root =>
    simp only [filepathJoin, ne_eq, reduceCtorEq, not_false_eq_true, if_true, joinDir,
      List.cons_append, Clean]
    by_cases hc : c = 47
    · simp only [hc, if_true]
      rw [cleanLoop_append_slash true e root .atSwitch [47] 1 (by simp)]
      have h := cleanLoop_normalElem true e [] (cleanLoop true .atSwitch root [47] 1).1
        (cleanLoop true .atSwitch root [47] 1).2 he
      simp only [List.append_nil] at h
      rw [h]
      have hne : e ≠ [] := he.1
      simp [cleanLoop, hne]
    · simp only [hc, if_false]
      have h0 := cleanLoop_append_slash false e (c :: root) .atSwitch [] 0 (by simp)
      simp only [List.cons_append] at h0
      rw [h0]
      have h := cleanLoop_normalElem false e [] (cleanLoop false .atSwitch (c :: root) [] 0).1
        (cleanLoop false .atSwitch (c :: root) [] 0).2 he
      simp only [List.append_nil] at h
      rw [h]
      have hne : e ≠ [] := he.1
      simp [cleanLoop, hne]

theorem filepathJoin_cancel (root e1 e2 : Bytes) (h1 : NormalElem e1) (h2 : NormalElem e2)
    (h : filepathJoin root e1 = filepathJoin root e2) : e1 = e2 := by
  rw [filepathJoin_normalElem root e1 h1, filepathJoin_normalElem root e2 h2] at h
  exact List.append_cancel_left h

/-! ## Lemmas on the cache key -/

theorem slash_not_mem_replaceAllSlashDash (s : Bytes) : 47 ∉ replaceAllSlashDash s := by
  intro h
  simp only [replaceAllSlashDash, List.mem_map] at h
  obtain ⟨c, _, hc⟩ := h
  split at hc <;> omega

theorem cacheFileName_no_slash (urlPath : Bytes) (forHeader : Bool) :
    47 ∉ cacheFileName urlPath forHeader := by
  have h := slash_not_mem_replaceAllSlashDash (trimPrefixSlash urlPath)
  cases forHeader <;> simp [cacheFileName, h, cacheExt, headerExt]

theorem cacheFileName_length (urlPath : Bytes) (forHeader : Bool) :
    5 ≤ (cacheFileName urlPath forHeader).length := by
  cases forHeader <;> simp [cacheFileName, cacheExt, headerExt]

theorem cacheFileName_normal (urlPath : Bytes) (forHeader : Bool) :
    NormalElem (cacheFileName urlPath forHeader) := by
  have hlen := cacheFileName_length urlPath forHeader
  refine ⟨?_, cacheFileName_no_slash urlPath forHeader, ?_, ?_⟩ <;>
    · intro h
      rw [h] at hlen
      simp at hlen

theorem replaceAllSlashDash_injective (a b : Bytes) (ha : 45 ∉ a) (hb : 45 ∉ b)
    (h : replaceAllSlashDash a = replaceAllSlashDash b) : a = b := by
  induction a generalizing b with
  | nil =>
    cases b with
    | nil => rfl
    | cons y b => simp [replaceAllSlashDash] at h
  | cons x a ih =>
    cases b with
    | nil => simp [replaceAllSlashDash] at h
    | cons y b =>
      simp only [replaceAllSlashDash, List.map_cons, List.cons.injEq] at h
      simp only [List.mem_cons, not_or] at ha hb
      have hxy : x = y := by
        have h1 := h.1
        split at h1 <;> split at h1 <;> omega
      rw [hxy, ih b ha.2 hb.2 h.2]

theorem cacheFileName_injective (P Q : Bytes) (forHeader : Bool)
    (hP : P.head? = some 47) (hQ : Q.head? = some 47) (hPd : 45 ∉ P) (hQd : 45 ∉ Q)
    (h : cacheFileName P forHeader = cacheFileName Q forHeader) : P = Q := by
  cases P with
  | nil => simp at hP
  | cons x P =>
    cases Q with
    | nil => simp at hQ
    | cons y Q =>
      simp only [List.head?_cons, Option.some.injEq] at hP hQ
      subst hP hQ
      simp only [List.mem_cons, not_or] at hPd hQd
      have h2 : replaceAllSlashDash P = replaceAllSlashDash Q := by
        cases forHeader <;>
          simpa [cacheFileName, trimPrefixSlash] using h
      rw [replaceAllSlashDash_injective P Q hPd.2 hQd.2 h2]

theorem bodyFile_ne_headerFile (cachePath urlPath : Bytes) :
    makeCacheFilePath cachePath urlPath true ≠ makeCacheFilePath cachePath urlPath false := by
  intro h
  have h2 := filepathJoin_cancel cachePath _ _ (cacheFileName_normal urlPath true)
    (cacheFileName_normal urlPath false) h
  simp [cacheFileName, cacheExt, headerExt] at h2

theorem getLast?_cons_of_getLast? (x : Nat) (w : Bytes) (h : w.getLast? = some 47) :
    (x :: w).getLast? = some 47 := by
  cases w with
  | nil => simp at h
  | cons y w => simpa [List.getLast?_cons_cons] using h

theorem backUp_getLast? (w : Bytes) (h : w.getLast? = some 47) (hl : 1 < w.length) :
    (backUp 1 w).getLast? = some 47 := by
  induction w with
  | nil => simp at hl
  | cons x w ih =>
    cases w with
    | nil => simp at hl
    | cons y w =>
      have hw : (y :: w).getLast? = some 47 := by
        simpa [List.getLast?_cons_cons] using h
      rw [backUp]
      split
      · rename_i hc
        exact ih hw hc.1
      · exact hw

theorem addSep_getLast? (r : Bool) (w : Bytes) (h : w.getLast? = some 47) :
    (addSep r w).getLast? = some 47 := by
  unfold addSep
  split
  · exact getLast?_cons_of_getLast? 47 w h
  · exact h

theorem cleanLoop_rooted_getLast? :
    ∀ (input : Bytes) (m : CleanMode) (w : Bytes), w.getLast? = some 47 →
      (cleanLoop true m input w 1).1.getLast? = some 47 := by
  intro input
  induction input with
  | nil => intro m w h; cases m <;> simpa [cleanLoop] using h
  | cons c rest ih =>
    intro m w h
    cases m with
    | inElem =>
      simp only [cleanLoop]
      split
      · exact ih _ _ h
      · exact ih _ _ (getLast?_cons_of_getLast? c w h)
    | secondDot =>
      simp only [cleanLoop]
      split
      · rename_i hl
        exact ih _ _ (backUp_getLast? w h hl)
      · simp only [Bool.true_eq_false, if_false]
        exact ih _ _ h
    | atSwitch =>
      simp only [cleanLoop]
      split
      · exact ih _ _ h
      · split
        · exact ih _ _ h
        · split
          · exact ih _ _ h
          · exact ih _ _ (getLast?_cons_of_getLast? c _ (addSep_getLast? true w h))

theorem joinDir_ends_with_slash (root : Bytes) :
    joinDir root = [] ∨ (joinDir root).getLast? = some 47 := by
  cases root with
  | nil => exact Or.inl rfl
  | cons c rest =>
    by_cases hc : c = 47
    · right
      have h := cleanLoop_rooted_getLast? rest .atSwitch [47] rfl
      simp only [joinDir, hc, if_true]
      generalize (cleanLoop true .atSwitch rest [47] 1).1 = W at h
      rw [List.getLast?_reverse]
      unfold addSep
      split
      · rfl
      · rename_i hlen
        cases W with
        | nil => simp at h
        | cons x W =>
          cases W with
          | nil => simpa using h
          | cons y W => simp at hlen
    · simp only [joinDir, hc, if_false]
      generalize (cleanLoop false .atSwitch (c :: rest) [] 0).1 = W
      cases W with
      | nil => left; simp [addSep]
      | cons x W => right; simp [addSep]

/-! ## Claims on the cache key -/

/-- C10: for every cache root there is one directory prefix, empty or ending in a
slash, such that for every request path both cache locations are that prefix
followed by the file name; and the file name joined to the root contains no slash
and is neither `.` nor `..`. -/
theorem C10_cache_files_direct_children (cachePath : Bytes) :
    ∃ dir : Bytes, (dir = [] ∨ dir.getLast? = some 47) ∧
      ∀ (urlPath : Bytes) (forHeader : Bool),
        makeCacheFilePath cachePath urlPath forHeader
            = filepathJoin cachePath (cacheFileName urlPath forHeader)
          ∧ 47 ∉ cacheFileName urlPath forHeader
          ∧ cacheFileName urlPath forHeader ≠ [46]
          ∧ cacheFileName urlPath forHeader ≠ [46, 46]
          ∧ makeCacheFilePath cachePath urlPath forHeader
              = dir ++ cacheFileName urlPath forHeader := by
  refine ⟨joinDir cachePath, joinDir_ends_with_slash cachePath, fun urlPath forHeader => ?_⟩
  have hn := cacheFileName_normal urlPath forHeader
  exact ⟨rfl, hn.2.1, hn.2.2.1, hn.2.2.2,
    filepathJoin_normalElem cachePath _ hn⟩

/-- C7, as stated, fails: the distinct paths `/a/b` and `/a-b` share both cache
locations under the root `data`. -/
theorem C7_counterexample :
    ascii "/a/b" ≠ ascii "/a-b"
      ∧ makeCacheFilePath (ascii "data") (ascii "/a/b") false
          = makeCacheFilePath (ascii "data") (ascii "/a-b") false
      ∧ makeCacheFilePath (ascii "data") (ascii "/a/b") true
          = makeCacheFilePath (ascii "data") (ascii "/a-b") true := by
  decide

/-- C7, amended: for every cache root, two distinct request paths that begin with
a slash and contain no `-` get distinct body locations and distinct header
locations. -/
theorem C7_distinct_locations_without_dash (cachePath P Q : Bytes)
    (hP : P.head? = some 47) (hQ : Q.head? = some 47) (hPd : 45 ∉ P) (hQd : 45 ∉ Q)
    (hne : P ≠ Q) :
    makeCacheFilePath cachePath P false ≠ makeCacheFilePath cachePath Q false
      ∧ makeCacheFilePath cachePath P true ≠ makeCacheFilePath cachePath Q true := by
  constructor <;>
    · intro h
      exact hne (cacheFileName_injective P Q _ hP hQ hPd hQd
        (filepathJoin_cancel cachePath _ _ (cacheFileName_normal P _)
          (cacheFileName_normal Q _) h))

/-- C7, amended, at the root `data` and the paths `/a/b` and `/a/c`. -/
theorem C7_distinct_locations_without_dash_witness :
    (ascii "/a/b").head? = some 47 ∧ (ascii "/a/c").head? = some 47
      ∧ 45 ∉ ascii "/a/b" ∧ 45 ∉ ascii "/a/c" ∧ ascii "/a/b" ≠ ascii "/a/c"
      ∧ makeCacheFilePath (ascii "data") (ascii "/a/b") false
        ≠ makeCacheFilePath (ascii "data") (ascii "/a/c") false
      ∧ makeCacheFilePath (ascii "data") (ascii "/a/b") true
        ≠ makeCacheFilePath (ascii "data") (ascii "/a/c") true :=
  ⟨by decide, by decide, by decide, by decide, by decide,
    C7_distinct_locations_without_dash (ascii "data") (ascii "/a/b") (ascii "/a/c")
      (by decide) (by decide) (by decide) (by decide) (by decide)⟩

/-! ## Claims on the handler -/

/-- C1: after a request for a path is handled with the upstream call succeeding
with payload `B`, cache writing on and both cache writes succeeding, a request
for the same path whose upstream call fails is answered with body `B` and with
the header `x-src: from cached-proxy`. -/
theorem C1_fallback_serves_last_body (upstreamHost cachePath : Bytes) (cacheWrite2 : Bool)
    (env1 env2 : World) (r1 r2 : Request) (fs : FS) (upRes : UpstreamResponse) (e : Bytes)
    (hpath : r2.path = r1.path)
    (hnew1 : env1.newRequest r1.method (upstreamTarget upstreamHost r1) = none)
    (hdo1 : env1.doRequest (upstreamRequest upstreamHost r1) = .ok upRes)
    (hw1 : env1.bodyWriteOk = true) (hw2 : env1.headerWriteOk = true)
    (hnew2 : env2.newRequest r2.method (upstreamTarget upstreamHost r2) = none)
    (hdo2 : env2.doRequest (upstreamRequest upstreamHost r2) = .error e) :
    (handleAll upstreamHost cachePath cacheWrite2 env2 r2
        (handleAll upstreamHost cachePath true env1 r1 fs).2).1.body = upRes.payload
      ∧ xSrc ∈ (handleAll upstreamHost cachePath cacheWrite2 env2 r2
        (handleAll upstreamHost cachePath true env1 r1 fs).2).1.header := by
  have hne := bodyFile_ne_headerFile cachePath r1.path
  have hne2 : makeCacheFilePath cachePath r1.path false ≠ makeCacheFilePath cachePath r1.path true :=
    fun h => hne h.symm
  simp [handleAll, hnew1, hdo1, hw1, hw2, hnew2, hdo2, hpath, writeFile, readFile, hne2]

/-- C1 at the request `GET /v1/items?id=5`: a forward that returns `payload`, then
a fallback on the cache directory the forward left. -/
theorem C1_fallback_serves_last_body_witness :
    (handleAll (ascii "http://up") (ascii "data") true worldDown getItems
        (handleAll (ascii "http://up") (ascii "data") true (worldUp (ascii "payload")) getItems
          emptyFS).2).1.body = ascii "payload"
      ∧ xSrc ∈ (handleAll (ascii "http://up") (ascii "data") true worldDown getItems
        (handleAll (ascii "http://up") (ascii "data") true (worldUp (ascii "payload")) getItems
          emptyFS).2).1.header :=
  C1_fallback_serves_last_body (ascii "http://up") (ascii "data") true
    (worldUp (ascii "payload")) worldDown getItems getItems emptyFS
    { header := [(ascii "X-Rate", some [ascii "10"])], payload := ascii "payload" }
    (ascii "down") rfl rfl rfl rfl rfl rfl rfl

/-- C3: when the upstream call fails with error `e` and the body artifact of the
request path cannot be read, the response has status 500, body `e` and no added
header, whatever the header artifact is, and the cache directory is unchanged. -/
theorem C3_cache_miss_returns_upstream_error (upstreamHost cachePath : Bytes)
    (cacheWrite : Bool) (env : World) (r : Request) (fs : FS) (e : Bytes)
    (hnew : env.newRequest r.method (upstreamTarget upstreamHost r) = none)
    (hdo : env.doRequest (upstreamRequest upstreamHost r) = .error e)
    (hmiss : readFile fs (makeCacheFilePath cachePath r.path false) = none) :
    handleAll upstreamHost cachePath cacheWrite env r fs
      = ({ status := 500, header := [], body := e }, fs) := by
  simp [handleAll, hnew, hdo, hmiss]

/-- C3 on a cache directory that holds a header artifact and no body artifact. -/
theorem C3_cache_miss_returns_upstream_error_witness :
    readFile headerOnlyFS (makeCacheFilePath (ascii "data") getItems.path true) ≠ none
      ∧ handleAll (ascii "http://up") (ascii "data") true worldDown getItems headerOnlyFS
        = ({ status := 500, header := [], body := ascii "down" }, headerOnlyFS) :=
  ⟨by decide,
    C3_cache_miss_returns_upstream_error (ascii "http://up") (ascii "data") true worldDown
      getItems headerOnlyFS (ascii "down") rfl rfl (by decide)⟩

/-- C8: the upstream target is the joined host-and-path target followed by `?`
and the raw query when the raw query is not empty, and the joined target alone
when it is empty. -/
theorem C8_query_appended_verbatim (upstreamHost : Bytes) (r : Request) :
    (upstreamRequest upstreamHost r).url
      = (if r.rawQuery = [] then joinedTarget upstreamHost r.path
         else joinedTarget upstreamHost r.path ++ [63] ++ r.rawQuery) := by
  by_cases h : r.rawQuery = [] <;> simp [upstreamRequest, upstreamTarget, h]

/-- C9: with `cacheWrite` false the handler leaves the cache directory as it
was, whatever the upstream call returns; and when the upstream call fails, the
response is the one given with `cacheWrite` true. -/
theorem C9_read_only_mode (upstreamHost cachePath : Bytes) (env : World) (r : Request)
    (fs : FS) :
    (handleAll upstreamHost cachePath false env r fs).2 = fs
      ∧ ((∃ e, env.doRequest (upstreamRequest upstreamHost r) = .error e) →
          (handleAll upstreamHost cachePath false env r fs).1
            = (handleAll upstreamHost cachePath true env r fs).1) := by
  constructor
  · simp only [handleAll]
    split
    · rfl
    · split
      · split <;> rfl
      · simp
  · rintro ⟨e, he⟩
    simp only [handleAll, he]

/-- C9 on a cache directory with a body artifact: a successful forward leaves it
unchanged, and a fallback serves the artifact, with `cacheWrite` false. -/
theorem C9_read_only_mode_witness :
    (handleAll (ascii "http://up") (ascii "data") false (worldUp (ascii "new")) getItems
        bodyOnlyFS).2 = bodyOnlyFS
      ∧ (handleAll (ascii "http://up") (ascii "data") false worldDown getItems bodyOnlyFS).1
        = { status := 200, header := [xSrc], body := ascii "old" }
      ∧ (handleAll (ascii "http://up") (ascii "data") false worldDown getItems bodyOnlyFS).1
        = (handleAll (ascii "http://up") (ascii "data") true worldDown getItems bodyOnlyFS).1 :=
  ⟨(C9_read_only_mode (ascii "http://up") (ascii "data") (worldUp (ascii "new")) getItems
      bodyOnlyFS).1,
    by decide,
    (C9_read_only_mode (ascii "http://up") (ascii "data") worldDown getItems bodyOnlyFS).2
      ⟨ascii "down", rfl⟩⟩

/-! ## Lemmas on the upstream target -/

theorem cleanLoop_segments (segs : List Bytes) (hsegs : ∀ e ∈ segs, NormalElem e) :
    ∀ (m : CleanMode) (w : Bytes) (dd : Nat), m ≠ .secondDot → w ≠ [] →
      cleanLoop false m (pathOfSegments segs) w dd
        = ((pathOfSegments segs).reverse ++ w, dd) := by
  induction segs with
  | nil =>
    intro m w dd _ _
    cases m <;> simp [pathOfSegments, cleanLoop]
  | cons e segs ih =>
    intro m w dd hm hw
    have he : NormalElem e := hsegs e (by simp)
    have hstep : cleanLoop false m (pathOfSegments (e :: segs)) w dd
        = cleanLoop false .atSwitch (e ++ pathOfSegments segs) w dd := by
      cases m with
      | atSwitch => simp [pathOfSegments, cleanLoop]
      | inElem => simp [pathOfSegments, cleanLoop]
      | secondDot => exact absurd rfl hm
    have hsep : addSep false w = 47 :: w := by
      cases w with
      | nil => exact absurd rfl hw
      | cons x w => simp [addSep]
    rw [hstep, cleanLoop_normalElem false e _ w dd he, hsep,
      ih (fun x hx => hsegs x (by simp [hx])) .inElem _ dd (by simp) (by simp)]
    simp [pathOfSegments]

theorem replaceFirstSlash_append (a rest : Bytes) (h : 47 ∉ a) :
    replaceFirstSlash (a ++ 47 :: rest) = a ++ 47 :: 47 :: rest := by
  induction a with
  | nil => simp [replaceFirstSlash]
  | cons c a ih =>
    simp only [List.mem_cons, not_or] at h
    have hc : c ≠ 47 := fun hc => h.1 hc.symm
    simp [replaceFirstSlash, hc, ih h.2]

theorem scheme_colon_normal (scheme : Bytes) (h : 47 ∉ scheme) : NormalElem (scheme ++ [58]) := by
  refine ⟨by simp, by simp [h], ?_, ?_⟩
  · intro h2
    have h3 := congrArg List.getLast? h2
    simp at h3
  · intro h2
    have h3 := congrArg List.getLast? h2
    simp at h3

/-! ## Claims on the upstream target -/

/-- C6, as stated, fails: for the host `http://up` and the request path `/` the
joined target is `http://up`, not the host followed by the path. -/
theorem C6_counterexample :
    joinedTarget (ascii "http://up") (ascii "/") = ascii "http://up"
      ∧ joinedTarget (ascii "http://up") (ascii "/") ≠ ascii "http://up" ++ ascii "/" := by
  decide

/-- C6, amended: for an upstream host `scheme://authority`, where neither part
contains a slash and the authority is a name other than `.` and `..`, and for a
request path made of one or more elements, each after a single slash and each a
name other than `.` and `..`, the target built before the query is appended is
the host followed by the path unchanged. -/
theorem C6_joined_target_for_clean_paths (scheme authority : Bytes) (segs : List Bytes)
    (hscheme : 47 ∉ scheme) (hauth : NormalElem authority)
    (hsegs : ∀ e ∈ segs, NormalElem e) (hne : segs ≠ []) :
    joinedTarget (scheme ++ [58, 47, 47] ++ authority) (pathOfSegments segs)
      = (scheme ++ [58, 47, 47] ++ authority) ++ pathOfSegments segs := by
  have hpath : pathOfSegments segs ≠ [] := by
    cases segs with
    | nil => exact absurd rfl hne
    | cons e segs => simp [pathOfSegments]
  have hhost : scheme ++ [58, 47, 47] ++ authority ≠ [] := by simp
  have hshape : (scheme ++ [58, 47, 47] ++ authority) ++ 47 :: pathOfSegments segs
      = (scheme ++ [58]) ++ 47 :: 47 :: (authority ++ 47 :: pathOfSegments segs) := by simp
  have h0 := scheme_colon_normal scheme hscheme
  have hloop : cleanLoop false .atSwitch
      ((scheme ++ [58]) ++ 47 :: 47 :: (authority ++ 47 :: pathOfSegments segs)) [] 0
      = ((pathOfSegments segs).reverse ++ (authority.reverse ++ 47 :: (scheme ++ [58]).reverse),
          0) := by
    rw [cleanLoop_normalElem false _ _ [] 0 h0]
    have e1 : ∀ (rest w : Bytes) (dd : Nat), cleanLoop false .inElem (47 :: rest) w dd
        = cleanLoop false .atSwitch rest w dd := by
      intro rest w dd; simp [cleanLoop]
    have e2 : ∀ (rest w : Bytes) (dd : Nat), cleanLoop false .atSwitch (47 :: rest) w dd
        = cleanLoop false .atSwitch rest w dd := by
      intro rest w dd; simp [cleanLoop]
    rw [e1, e2, cleanLoop_normalElem false _ _ _ 0 hauth, e1,
      cleanLoop_segments segs hsegs .atSwitch _ 0 (by simp) (by simp [addSep])]
    simp [addSep]
  have hclean : Clean ((scheme ++ [58]) ++ 47 :: 47 :: (authority ++ 47 :: pathOfSegments segs))
      = (scheme ++ [58]) ++ 47 :: (authority ++ pathOfSegments segs) := by
    cases hs : scheme ++ [58] with
    | nil => simp at hs
    | cons c t =>
      have hc : c ≠ 47 := by
        intro hc
        have : 47 ∈ scheme ++ [58] := by rw [hs, hc]; simp
        exact h0.2.1 this
      rw [hs] at hloop
      simp only [List.cons_append] at hloop ⊢
      simp only [Clean, hc, if_false]
      rw [hloop]
      simp
  have hnoslash : 47 ∉ scheme ++ [58] := h0.2.1
  have hsize : ¬ ((scheme ++ [58, 47, 47] ++ authority).length
      + (pathOfSegments segs).length = 0) := by
    simp
  simp only [joinedTarget, pathJoin, hsize, hhost, if_false]
  rw [hshape, hclean, replaceFirstSlash_append _ _ hnoslash]
  simp

/-- C6, amended, at the host `http://up:8080` and the path `/v1/items`. -/
theorem C6_joined_target_for_clean_paths_witness :
    47 ∉ ascii "http" ∧ NormalElem (ascii "up:8080")
      ∧ (∀ e ∈ [ascii "v1", ascii "items"], NormalElem e)
      ∧ pathOfSegments [ascii "v1", ascii "items"] = ascii "/v1/items"
      ∧ joinedTarget (ascii "http" ++ [58, 47, 47] ++ ascii "up:8080")
          (pathOfSegments [ascii "v1", ascii "items"])
        = (ascii "http" ++ [58, 47, 47] ++ ascii "up:8080")
          ++ pathOfSegments [ascii "v1", ascii "items"] :=
  ⟨by decide, by decide, by decide, by decide,
    C6_joined_target_for_clean_paths (ascii "http") (ascii "up:8080")
      [ascii "v1", ascii "items"] (by decide) (by decide) (by decide) (by decide)⟩

/-! ## Lemmas on UTF-8 and on the JSON codec -/

theorem Char_isScalar (c : Char) : IsScalar c.toNat := by
  have h := c.valid
  simpa [IsScalar, UInt32.isValidChar, Nat.isValidChar, Char.toNat] using h

theorem decodeRune_two (n : Nat) (h80 : 0x80 ≤ n) (h : n ≤ 0x7FF) (rest : Bytes) :
    decodeRune ((0xC0 + n / 64) :: (0x80 + n % 64) :: rest) = (n, 2) := by
  have h1 : ¬ (0xC0 + n / 64 < 0x80) := by omega
  have h2 : ¬ (0xC0 + n / 64 < 0xC2 ∨ 0xF4 < 0xC0 + n / 64) := by omega
  have h3 : ¬ (0xC0 + n / 64 = 0xE0) := by omega
  have h4 : ¬ (0xC0 + n / 64 = 0xF0) := by omega
  have h5 : ¬ (0xC0 + n / 64 = 0xED) := by omega
  have h6 : ¬ (0xC0 + n / 64 = 0xF4) := by omega
  have h7 : ¬ (0x80 + n % 64 < 0x80 ∨ 0xBF < 0x80 + n % 64) := by omega
  have h8 : 0xC0 + n / 64 < 0xE0 := by omega
  simp only [decodeRune, h1, h2, h3, h4, h5, h6, h7, h8, if_false, if_true]
  congr 1
  omega

theorem decodeRune_three (n : Nat) (h80 : 0x800 ≤ n) (h : n ≤ 0xFFFF)
    (hs : ¬ (0xD800 ≤ n ∧ n ≤ 0xDFFF)) (rest : Bytes) :
    decodeRune ((0xE0 + n / 4096) :: (0x80 + (n / 64) % 64) :: (0x80 + n % 64) :: rest) = (n, 3) := by
  have h1 : ¬ (0xE0 + n / 4096 < 0x80) := by omega
  have h2 : ¬ (0xE0 + n / 4096 < 0xC2 ∨ 0xF4 < 0xE0 + n / 4096) := by omega
  have h4 : ¬ (0xE0 + n / 4096 = 0xF0) := by omega
  have h6 : ¬ (0xE0 + n / 4096 = 0xF4) := by omega
  have h8 : ¬ (0xE0 + n / 4096 < 0xE0) := by omega
  have h9 : ¬ (0x80 + n % 64 < 0x80 ∨ 0xBF < 0x80 + n % 64) := by omega
  have h10 : 0xE0 + n / 4096 < 0xF0 := by omega
  simp only [decodeRune, h1, h2, h4, h6, h8, h9, h10, if_false, if_true]
  have h7 : ¬ (0x80 + n / 64 % 64 < (if 0xE0 + n / 4096 = 0xE0 then 0xA0 else 0x80)
      ∨ (if 0xE0 + n / 4096 = 0xED then 0x9F else 0xBF) < 0x80 + n / 64 % 64) := by
    split_ifs <;> omega
  simp only [h7, if_false]
  congr 1
  omega

theorem decodeRune_four (n : Nat) (h80 : 0x10000 ≤ n) (h : n ≤ 0x10FFFF) (rest : Bytes) :
    decodeRune ((0xF0 + n / 262144) :: (0x80 + (n / 4096) % 64) :: (0x80 + (n / 64) % 64)
      :: (0x80 + n % 64) :: rest) = (n, 4) := by
  have h1 : ¬ (0xF0 + n / 262144 < 0x80) := by omega
  have h2 : ¬ (0xF0 + n / 262144 < 0xC2 ∨ 0xF4 < 0xF0 + n / 262144) := by omega
  have h3 : ¬ (0xF0 + n / 262144 = 0xE0) := by omega
  have h5 : ¬ (0xF0 + n / 262144 = 0xED) := by omega
  have h8 : ¬ (0xF0 + n / 262144 < 0xE0) := by omega
  have h9 : ¬ (0x80 + n % 64 < 0x80 ∨ 0xBF < 0x80 + n % 64) := by omega
  have h9b : ¬ (0x80 + n / 64 % 64 < 0x80 ∨ 0xBF < 0x80 + n / 64 % 64) := by omega
  have h10 : ¬ (0xF0 + n / 262144 < 0xF0) := by omega
  simp only [decodeRune, h1, h2, h3, h5, h8, h9, h9b, h10, if_false, if_true]
  have h7 : ¬ (0x80 + n / 4096 % 64 < (if 0xF0 + n / 262144 = 0xF0 then 0x90 else 0x80)
      ∨ (if 0xF0 + n / 262144 = 0xF4 then 0x8F else 0xBF) < 0x80 + n / 4096 % 64) := by
    split_ifs <;> omega
  simp only [h7, if_false]
  congr 1
  omega

theorem decodeRune_encodeRune (n : Nat) (hn : IsScalar n) (h80 : 0x80 ≤ n) (rest : Bytes) :
    decodeRune (encodeRune n ++ rest) = (n, (encodeRune n).length) := by
  unfold IsScalar at hn
  unfold encodeRune
  split
  · omega
  · split
    · exact decodeRune_two n h80 (by omega) rest
    · split
      · omega
      · split
        · exact decodeRune_three n (by omega) (by omega) (by omega) rest
        · exact decodeRune_four n (by omega) (by omega) rest

theorem utf8_cons (c : Char) (cs : List Char) : utf8 (c :: cs) = encodeRune c.toNat ++ utf8 cs := by
  simp [utf8]

theorem encodeRune_head (n : Nat) (h80 : 0x80 ≤ n) :
    ∃ b tl, encodeRune n = b :: tl ∧ 0x80 ≤ b ∧ 2 ≤ (encodeRune n).length := by
  unfold encodeRune
  split
  · omega
  · split
    · exact ⟨_, _, rfl, by omega, by simp⟩
    · split
      · exact ⟨_, _, rfl, by omega, by simp⟩
      · split
        · exact ⟨_, _, rfl, by omega, by simp⟩
        · exact ⟨_, _, rfl, by omega, by simp⟩

theorem encodeRune_length_pos (n : Nat) : 1 ≤ (encodeRune n).length := by
  unfold encodeRune
  split_ifs <;> simp

theorem appendStringLoop_scalar (n : Nat) (hn : IsScalar n) (fuel : Nat) (rest : Bytes) :
    appendStringLoop (fuel + 1) (encodeRune n ++ rest) = encodeChar n ++ appendStringLoop fuel rest := by
  by_cases h80 : n < 0x80
  · have h1 : encodeRune n = [n] := by simp [encodeRune]; omega
    rw [h1]
    simp only [List.cons_append, List.nil_append, appendStringLoop, h80, if_true, encodeChar]
    split <;> simp
  · obtain ⟨b, tl, hb, hb80, hlen⟩ := encodeRune_head n (by omega)
    have hdec := decodeRune_encodeRune n hn (by omega) rest
    have hnb : ¬ b < 0x80 := by omega
    have hsize : ¬ (n = RuneError ∧ (encodeRune n).length = 1) := by omega
    rw [hb] at hdec hlen hsize
    rw [hb]
    simp only [List.cons_append, appendStringLoop, hnb, if_false, List.append_eq]
    simp only [List.cons_append] at hdec
    rw [hdec]
    simp only [hsize, if_false, encodeChar, h80]
    have hdrop : List.drop (b :: tl).length (b :: (tl ++ rest)) = rest := by
      rw [← List.cons_append]; simp
    have htake : List.take (b :: tl).length (b :: (tl ++ rest)) = b :: tl := by
      rw [← List.cons_append]; simp
    rw [hdrop, htake]
    split <;> simp [hb]

theorem utf8_length (cs : List Char) : cs.length ≤ (utf8 cs).length := by
  induction cs with
  | nil => simp [utf8]
  | cons c cs ih =>
    rw [utf8_cons]
    have := encodeRune_length_pos c.toNat
    simp only [List.length_append, List.length_cons]
    omega

theorem appendStringLoop_utf8 (cs : List Char) :
    ∀ fuel, cs.length ≤ fuel → appendStringLoop fuel (utf8 cs) = encodeChars cs := by
  induction cs with
  | nil => intro fuel _; cases fuel <;> simp [utf8, appendStringLoop, encodeChars]
  | cons c cs ih =>
    intro fuel hf
    cases fuel with
    | zero => simp at hf
    | succ fuel =>
      rw [utf8_cons, appendStringLoop_scalar _ (Char_isScalar c), ih fuel (by simpa using hf)]
      rfl

theorem appendString_utf8 (cs : List Char) :
    appendString (utf8 cs) = 34 :: (encodeChars cs ++ [34]) := by
  simp [appendString, appendStringLoop_utf8 cs _ (utf8_length cs)]

theorem hexVal_hexDigit : ∀ d < 16, hexVal (hexDigit d) = some d := by decide

theorem getu4_escape (n : Nat) (hn : n < 256) (rest : Bytes) :
    getu4 (92 :: 117 :: 48 :: 48 :: hexDigit (n / 16) :: hexDigit (n % 16) :: rest)
      = some (n, rest) := by
  have h1 := hexVal_hexDigit (n / 16) (by omega)
  have h2 := hexVal_hexDigit (n % 16) (by omega)
  have h0 : hexVal 48 = some 0 := by decide
  simp only [getu4, h0, h1, h2, and_self, if_true]
  congr 2
  omega

theorem parseStringBody_escapeByte (n : Nat) (hn : n < 0x80) (hsafe : ¬ htmlSafe n = true)
    (fuel : Nat) (rest : Bytes) :
    parseStringBody (fuel + 1) (escapeByte n ++ rest) = prepend [n] (parseStringBody fuel rest) := by
  unfold escapeByte
  split_ifs with h1 h2 h3 h4 h5 h6
  · rcases h1 with rfl | rfl <;> simp [parseStringBody, unescape]
  · subst h2; simp [parseStringBody, unescape]
  · subst h3; simp [parseStringBody, unescape]
  · subst h4; simp [parseStringBody, unescape]
  · subst h5; simp [parseStringBody, unescape]
  · subst h6; simp [parseStringBody, unescape]
  · have hg := getu4_escape n (by omega) rest
    have hns : ¬ (0xD800 ≤ n ∧ n < 0xE000) := by omega
    have hr : encodeRune n = [n] := by simp [encodeRune]; omega
    show parseStringBody (fuel + 1)
      (92 :: 117 :: 48 :: 48 :: hexDigit (n / 16) :: hexDigit (n % 16) :: rest) = _
    simp only [parseStringBody, show ¬ (92 : Nat) = 34 by decide, if_false, if_true]
    rw [hg]
    simp only [hns, if_false, hr]

theorem parseStringBody_encodeChar (n : Nat) (hn : IsScalar n) (fuel : Nat) (rest : Bytes) :
    parseStringBody (fuel + 1) (encodeChar n ++ rest)
      = prepend (encodeRune n) (parseStringBody fuel rest) := by
  unfold encodeChar
  by_cases h80 : n < 0x80
  · have hr : encodeRune n = [n] := by simp [encodeRune]; omega
    simp only [h80, if_true, hr]
    by_cases hsafe : htmlSafe n = true
    · simp only [hsafe, if_true]
      simp only [htmlSafe, decide_eq_true_eq] at hsafe
      have h34 : ¬ n = 34 := by omega
      have h92 : ¬ n = 92 := by omega
      have h32 : ¬ n < 32 := by omega
      simp [parseStringBody, h34, h92, h32, h80]
    · simp only [hsafe]
      exact parseStringBody_escapeByte n h80 hsafe fuel rest
  · simp only [h80, if_false]
    split_ifs with hls
    · rcases hls with rfl | rfl
      · simp [parseStringBody, getu4, hexVal, hexDigit]
      · simp [parseStringBody, getu4, hexVal, hexDigit]
    · obtain ⟨b, tl, hb, hb80, hlen⟩ := encodeRune_head n (by omega)
      have hdec := decodeRune_encodeRune n hn (by omega) rest
      rw [hb] at hdec
      simp only [List.cons_append] at hdec
      have h34 : ¬ b = 34 := by omega
      have h92 : ¬ b = 92 := by omega
      have h32 : ¬ b < 32 := by omega
      have h128 : ¬ b < 0x80 := by omega
      have hdrop : List.drop (b :: tl).length (b :: (tl ++ rest)) = rest := by
        rw [← List.cons_append]; simp
      rw [hb]
      simp only [List.cons_append, parseStringBody, h34, h92, h32, h128, if_false, List.append_eq,
        hdec, hdrop]
      rw [← hb]

theorem encodeChar_length_pos (n : Nat) : 1 ≤ (encodeChar n).length := by
  unfold encodeChar escapeByte
  have := encodeRune_length_pos n
  split_ifs <;> simp
  omega

theorem encodeChars_length (cs : List Char) : cs.length ≤ (encodeChars cs).length := by
  induction cs with
  | nil => simp [encodeChars]
  | cons c cs ih =>
    have := encodeChar_length_pos c.toNat
    simp only [encodeChars, List.length_append, List.length_cons]
    omega

theorem parseStringBody_encodeChars (cs : List Char) (rest : Bytes) :
    ∀ fuel, cs.length < fuel →
      parseStringBody fuel (encodeChars cs ++ 34 :: rest) = some (utf8 cs, rest) := by
  induction cs with
  | nil =>
    intro fuel hf
    cases fuel with
    | zero => simp at hf
    | succ fuel => simp [encodeChars, parseStringBody, utf8]
  | cons c cs ih =>
    intro fuel hf
    cases fuel with
    | zero => simp at hf
    | succ fuel =>
      rw [encodeChars, List.append_assoc, parseStringBody_encodeChar _ (Char_isScalar c),
        ih fuel (by simpa using hf), utf8_cons]
      rfl

theorem parseString_encodeChars (cs : List Char) (rest : Bytes) :
    parseString (encodeChars cs ++ 34 :: rest) = some (utf8 cs, rest) := by
  unfold parseString
  apply parseStringBody_encodeChars
  have := encodeChars_length cs
  simp only [List.length_append, List.length_cons]
  omega

theorem skipSpace_nonspace (c : Nat) (t : Bytes) (h : isSpace c = false) :
    skipSpace (c :: t) = c :: t := by
  simp [skipSpace, h]

theorem skipSpace_quote (t : Bytes) : skipSpace (34 :: t) = 34 :: t := by
  simp [skipSpace, isSpace]

theorem joinComma_appendString_head (v : Bytes) (vs : List Bytes) :
    ∃ t, joinComma ((v :: vs).map appendString) = 34 :: t := by
  cases vs with
  | nil => exact ⟨_, rfl⟩
  | cons v2 vs => exact ⟨_, rfl⟩

theorem parseValue_appendString (s : Bytes) (hs : IsUTF8 s) (fuel depth : Nat) (rest : Bytes) :
    parseValue (fuel + 1) depth (appendString s ++ rest) = some (.str s, rest) := by
  obtain ⟨cs, rfl⟩ := hs
  rw [appendString_utf8]
  show parseValue (fuel + 1) depth (34 :: (encodeChars cs ++ [34] ++ rest)) = _
  have h : encodeChars cs ++ [34] ++ rest = encodeChars cs ++ 34 :: rest := by simp
  rw [h]
  simp only [parseValue, show ¬ (34 : Nat) = 123 by decide, show ¬ (34 : Nat) = 91 by decide,
    if_false, if_true, parseString_encodeChars]

theorem parseElems_succ (fuel depth : Nat) (s : Bytes) :
    parseElems (fuel + 1) depth s =
      match parseValue fuel depth s with
      | none => none
      | some (v, rest) =>
        match skipSpace rest with
        | [] => none
        | c :: rest2 =>
          if c = 44 then
            match parseElems fuel depth (skipSpace rest2) with
            | none => none
            | some (vs, rest3) => some (v :: vs, rest3)
          else if c = 93 then some ([v], rest2)
          else none := by
  rw [parseElems]

theorem parseElems_joinComma (depth : Nat) (rest : Bytes) (vs : List Bytes) :
    ∀ (v : Bytes) (fuel : Nat), (∀ x ∈ v :: vs, IsUTF8 x) → vs.length + 2 ≤ fuel →
      parseElems fuel depth (joinComma ((v :: vs).map appendString) ++ 93 :: rest)
        = some ((v :: vs).map .str, rest) := by
  induction vs with
  | nil =>
    intro v fuel hv hf
    obtain ⟨f1, rfl⟩ : ∃ f1, fuel = f1 + 1 + 1 := ⟨fuel - 2, by simp at hf; omega⟩
    simp only [List.map_cons, List.map_nil, joinComma]
    rw [parseElems_succ, parseValue_appendString v (hv v (by simp))]
    simp [skipSpace, isSpace]
  | cons v2 vs ih =>
    intro v fuel hv hf
    obtain ⟨f1, rfl⟩ : ∃ f1, fuel = f1 + 1 + 1 := ⟨fuel - 2, by simp at hf; omega⟩
    have hih := ih v2 (f1 + 1) (fun x hx => hv x (by simp at hx ⊢; tauto)) (by simp at hf ⊢; omega)
    obtain ⟨t, ht⟩ := joinComma_appendString_head v2 vs
    have hshape : joinComma ((v :: v2 :: vs).map appendString) ++ 93 :: rest
        = appendString v ++ 44 :: (joinComma ((v2 :: vs).map appendString) ++ 93 :: rest) := by
      simp [joinComma]
    rw [hshape, parseElems_succ, parseValue_appendString v (hv v (by simp))]
    have hsk : skipSpace (joinComma ((v2 :: vs).map appendString) ++ 93 :: rest)
        = joinComma ((v2 :: vs).map appendString) ++ 93 :: rest := by
      rw [ht]; exact skipSpace_quote _
    simp only [skipSpace_nonspace 44 _ (by decide), hsk, hih, if_true]
    rfl

theorem parseValue_encodeSlice (v : Slice) (hv : ∀ vs, v = some vs → ∀ x ∈ vs, IsUTF8 x)
    (fuel depth : Nat) (hf : (v.getD []).length + 2 ≤ fuel) (hd : depth < maxNestingDepth)
    (rest : Bytes) :
    parseValue fuel depth (encodeSlice v ++ rest) = some (sliceVal v, rest) := by
  obtain ⟨f1, rfl⟩ : ∃ f1, fuel = f1 + 1 + 1 := ⟨fuel - 2, by omega⟩
  have hdep : ¬ maxNestingDepth ≤ depth := by omega
  cases v with
  | none =>
    show parseValue (f1 + 1 + 1) depth (110 :: 117 :: 108 :: 108 :: rest) = _
    simp [parseValue, parseLit, sliceVal]
  | some vs =>
    cases vs with
    | nil =>
      show parseValue (f1 + 1 + 1) depth (91 :: 93 :: rest) = _
      simp [parseValue, hdep, skipSpace, isSpace, sliceVal]
    | cons x vs =>
      obtain ⟨t, ht⟩ := joinComma_appendString_head x vs
      have hel := parseElems_joinComma (depth + 1) rest vs x (f1 + 1) (hv _ rfl)
        (by simp at hf; omega)
      have hshape : encodeSlice (some (x :: vs)) ++ rest
          = 91 :: (joinComma ((x :: vs).map appendString) ++ 93 :: rest) := by
        simp [encodeSlice]
      rw [hshape]
      rw [ht] at hel ⊢
      simp only [List.cons_append] at hel ⊢
      simp only [parseValue, show ¬ (91 : Nat) = 123 by decide, if_false, if_true, hdep,
        skipSpace_quote, show ¬ (34 : Nat) = 93 by decide, hel, sliceVal]

theorem parseMembers_succ (fuel depth c : Nat) (rest : Bytes) :
    parseMembers (fuel + 1) depth (c :: rest) =
      if c = 34 then
        match parseString rest with
        | none => none
        | some (k, rest2) =>
          match skipSpace rest2 with
          | [] => none
          | c2 :: rest3 =>
            if c2 = 58 then
              match parseValue fuel depth (skipSpace rest3) with
              | none => none
              | some (v, rest4) =>
                match skipSpace rest4 with
                | [] => none
                | c3 :: rest5 =>
                  if c3 = 44 then
                    match parseMembers fuel depth (skipSpace rest5) with
                    | none => none
                    | some (ms, rest6) => some ((k, v) :: ms, rest6)
                  else if c3 = 125 then some ([(k, v)], rest5)
                  else none
            else none
      else none := by
  rw [parseMembers]

theorem encodeSlice_skipSpace (v : Slice) (rest : Bytes) :
    skipSpace (encodeSlice v ++ rest) = encodeSlice v ++ rest := by
  cases v with
  | none => exact skipSpace_nonspace 110 _ (by decide)
  | some vs => exact skipSpace_nonspace 91 _ (by decide)

theorem encodeMember_shape (kv : Bytes × Slice) (hk : IsUTF8 kv.1) (rest : Bytes) :
    ∃ cs : List Char, kv.1 = utf8 cs ∧
      encodeMember kv ++ rest = 34 :: (encodeChars cs ++ 34 :: 58 :: (encodeSlice kv.2 ++ rest)) := by
  obtain ⟨cs, hcs⟩ := hk
  refine ⟨cs, hcs, ?_⟩
  simp [encodeMember, hcs, appendString_utf8]

theorem joinComma_encodeMember_head (kv : Bytes × Slice) (ms : Header) :
    ∃ t, joinComma ((kv :: ms).map encodeMember) = 34 :: t := by
  cases ms with
  | nil => exact ⟨_, rfl⟩
  | cons m2 ms => exact ⟨_, rfl⟩

theorem parseMembers_one (kv : Bytes × Slice) (hkv : HeaderUTF8 [kv]) (fuel depth : Nat)
    (hf : (kv.2.getD []).length + 2 ≤ fuel) (hd : depth < maxNestingDepth) (c3 : Nat)
    (rest5 : Bytes) (hc3 : isSpace c3 = false) :
    parseMembers (fuel + 1) depth (encodeMember kv ++ c3 :: rest5) =
      if c3 = 44 then
        match parseMembers fuel depth (skipSpace rest5) with
        | none => none
        | some (ms, rest6) => some ((kv.1, sliceVal kv.2) :: ms, rest6)
      else if c3 = 125 then some ([(kv.1, sliceVal kv.2)], rest5)
      else none := by
  have h := hkv kv (by simp)
  obtain ⟨cs, hcs, hshape⟩ := encodeMember_shape kv h.1 (c3 :: rest5)
  rw [hshape, parseMembers_succ]
  simp only [if_true, parseString_encodeChars, skipSpace_nonspace 58 _ (by decide),
    encodeSlice_skipSpace, parseValue_encodeSlice kv.2 h.2 fuel depth hf hd,
    skipSpace_nonspace c3 _ hc3, ← hcs]

theorem parseMembers_joinComma (depth : Nat) (hd : depth < maxNestingDepth) (rest : Bytes)
    (ms : Header) :
    ∀ (kv : Bytes × Slice) (fuel : Nat), HeaderUTF8 (kv :: ms) → membersFuel (kv :: ms) ≤ fuel →
      parseMembers fuel depth (joinComma ((kv :: ms).map encodeMember) ++ 125 :: rest)
        = some (memberVals (kv :: ms), rest) := by
  induction ms with
  | nil =>
    intro kv fuel hkv hf
    obtain ⟨f1, rfl⟩ : ∃ f1, fuel = f1 + 1 := ⟨fuel - 1, by simp [membersFuel] at hf; omega⟩
    simp only [List.map_cons, List.map_nil, joinComma]
    rw [parseMembers_one kv (fun x hx => hkv x (by simpa using hx)) f1 depth
      (by simp [membersFuel] at hf; omega) hd 125 rest (by decide)]
    simp [memberVals]
  | cons m2 ms ih =>
    intro kv fuel hkv hf
    obtain ⟨f1, rfl⟩ : ∃ f1, fuel = f1 + 1 := ⟨fuel - 1, by simp [membersFuel] at hf; omega⟩
    have hih := ih m2 f1 (fun x hx => hkv x (by simp at hx ⊢; tauto))
      (by simp [membersFuel] at hf ⊢; omega)
    obtain ⟨t, ht⟩ := joinComma_encodeMember_head m2 ms
    have hshape : joinComma ((kv :: m2 :: ms).map encodeMember) ++ 125 :: rest
        = encodeMember kv ++ 44 :: (joinComma ((m2 :: ms).map encodeMember) ++ 125 :: rest) := by
      simp [joinComma]
    have hsk : skipSpace (joinComma ((m2 :: ms).map encodeMember) ++ 125 :: rest)
        = joinComma ((m2 :: ms).map encodeMember) ++ 125 :: rest := by
      rw [ht]; exact skipSpace_quote _
    rw [hshape, parseMembers_one kv (fun x hx => hkv x (by simp at hx ⊢; tauto)) f1 depth
      (by simp [membersFuel] at hf; omega) hd 44 _ (by decide)]
    simp only [if_true, hsk, hih]
    rfl

theorem joinComma_length (xs : List Bytes) : (xs.map List.length).sum ≤ (joinComma xs).length := by
  induction xs with
  | nil => simp [joinComma]
  | cons x xs ih =>
    cases xs with
    | nil => simp [joinComma]
    | cons y ys =>
      simp only [joinComma, List.map_cons, List.sum_cons, List.length_append, List.length_cons] at ih ⊢
      omega

theorem appendString_length (s : Bytes) : 2 ≤ (appendString s).length := by
  simp [appendString]

theorem encodeSlice_length (v : Slice) : (v.getD []).length ≤ (encodeSlice v).length := by
  cases v with
  | none => simp [encodeSlice]
  | some vs =>
    have h := joinComma_length (vs.map appendString)
    have h2 : vs.length ≤ ((vs.map appendString).map List.length).sum := by
      clear h
      induction vs with
      | nil => simp
      | cons x xs ih =>
        have := appendString_length x
        simp only [List.map_cons, List.sum_cons, List.length_cons]
        omega
    simp only [Option.getD_some, encodeSlice, List.length_cons, List.length_append, List.length_nil]
    omega

theorem encodeMember_length (kv : Bytes × Slice) :
    (kv.2.getD []).length + 3 ≤ (encodeMember kv).length := by
  have h1 := appendString_length kv.1
  have h2 := encodeSlice_length kv.2
  simp only [encodeMember, List.length_append, List.length_cons]
  omega

theorem membersFuel_le (ms : Header) :
    membersFuel ms ≤ (joinComma (ms.map encodeMember)).length := by
  refine le_trans ?_ (joinComma_length _)
  induction ms with
  | nil => simp [membersFuel]
  | cons kv ms ih =>
    have := encodeMember_length kv
    simp only [membersFuel, List.map_cons, List.sum_cons]
    omega

theorem HeaderUTF8_sortedEntries (h : Header) (hh : HeaderUTF8 h) : HeaderUTF8 (sortedEntries h) := by
  intro kv hkv
  exact hh kv ((List.perm_insertionSort _ h).mem_iff.mp hkv)

theorem parseJSON_Marshal (h : Header) (hh : HeaderUTF8 h) :
    parseJSON (Marshal h) = some (.obj (memberVals (sortedEntries h))) := by
  have hs := HeaderUTF8_sortedEntries h hh
  unfold Marshal parseJSON
  generalize sortedEntries h = ms at hs
  rw [skipSpace_nonspace 123 _ (by decide)]
  cases ms with
  | nil =>
    simp [joinComma, parseValue, maxNestingDepth, skipSpace, isSpace, memberVals]
  | cons kv ms =>
    obtain ⟨t, ht⟩ := joinComma_encodeMember_head kv ms
    have hlen := membersFuel_le (kv :: ms)
    obtain ⟨f, hf, hle⟩ : ∃ f, (123 :: (joinComma ((kv :: ms).map encodeMember) ++ [125])).length + 1
        = f + 1 ∧ membersFuel (kv :: ms) ≤ f :=
      ⟨_, rfl, by simp only [List.length_cons, List.length_append]; omega⟩
    have hm := parseMembers_joinComma 1 (by decide) [] ms kv f hs hle
    rw [hf]
    rw [ht] at hm ⊢
    simp only [List.cons_append] at hm ⊢
    simp only [parseValue, if_true, show ¬ maxNestingDepth ≤ 0 by decide, if_false,
      skipSpace_quote, show ¬ (34 : Nat) = 125 by decide, hm]
    simp [skipSpace]

theorem storeString_map_str (vs : List Bytes) :
    (vs.map JVal.str).map (fun v => (storeString v).1) = vs := by
  induction vs with
  | nil => rfl
  | cons x xs ih =>
    show (storeString (.str x)).1 :: (xs.map JVal.str).map (fun v => (storeString v).1) = x :: xs
    rw [ih]
    rfl

theorem storeString_any_str (vs : List Bytes) :
    (vs.map JVal.str).any (fun v => (storeString v).2) = false := by
  induction vs with
  | nil => rfl
  | cons x xs ih =>
    show ((storeString (.str x)).2 || (xs.map JVal.str).any (fun v => (storeString v).2)) = false
    rw [ih]
    rfl

theorem storeSlice_sliceVal (v : Slice) : storeSlice (sliceVal v) = (v, false) := by
  cases v with
  | none => rfl
  | some vs => simp only [sliceVal, storeSlice, storeString_map_str, storeString_any_str]

theorem mapSet_fresh (m : Header) (k : Bytes) (v : Slice) (hk : k ∉ m.map Prod.fst) :
    mapSet m k v = m ++ [(k, v)] := by
  induction m with
  | nil => rfl
  | cons kv m ih =>
    obtain ⟨k2, v2⟩ := kv
    simp only [List.map_cons, List.mem_cons, not_or] at hk
    have hne : ¬ k2 = k := fun h => hk.1 h.symm
    simp [mapSet, hne, ih hk.2]

theorem storeMembers_memberVals (ms : Header) :
    ∀ m : Header, ((m ++ ms).map Prod.fst).Nodup →
      storeMembers (memberVals ms) m = (m ++ ms, false) := by
  induction ms with
  | nil => intro m _; simp [memberVals, storeMembers]
  | cons kv ms ih =>
    intro m hnd
    obtain ⟨k, v⟩ := kv
    have hk : k ∉ m.map Prod.fst := by
      intro hmem
      simp only [List.map_append, List.map_cons] at hnd
      have := List.nodup_append.mp hnd
      exact this.2.2 hmem (by simp)
    have hnd2 : (((m ++ [(k, v)]) ++ ms).map Prod.fst).Nodup := by
      simpa using hnd
    have h := ih (m ++ [(k, v)]) hnd2
    simp only [memberVals, List.map_cons, storeMembers, storeSlice_sliceVal, mapSet_fresh m k v hk,
      Bool.false_or]
    simp only [memberVals] at h
    rw [h]
    simp

theorem sortedEntries_perm (h : Header) : (sortedEntries h).Perm h :=
  List.perm_insertionSort _ h

theorem httpHeader_round_trip (h : Header) (hh : HeaderUTF8 h) (hkeys : (h.map Prod.fst).Nodup) :
    httpHeaderFromString (httpHeaderToString h) = (sortedEntries h, none) := by
  have hnd : (([] ++ sortedEntries h).map Prod.fst).Nodup := by
    simp only [List.nil_append]
    exact ((sortedEntries_perm h).map Prod.fst).nodup_iff.mpr hkeys
  simp [httpHeaderFromString, httpHeaderToString, Unmarshal, parseJSON_Marshal h hh, storeMap,
    storeMembers_memberVals (sortedEntries h) [] hnd]

theorem mapGet_perm {l1 l2 : Header} (p : l1.Perm l2) (nd : (l1.map Prod.fst).Nodup)
    (k : Bytes) : mapGet l1 k = mapGet l2 k := by
  induction p with
  | nil => rfl
  | cons x _ ih =>
    obtain ⟨k2, v⟩ := x
    simp only [List.map_cons, List.nodup_cons] at nd
    simp only [mapGet, ih nd.2]
  | swap x y l =>
    obtain ⟨kx, vx⟩ := x
    obtain ⟨ky, vy⟩ := y
    simp only [List.map_cons, List.nodup_cons, List.mem_cons, not_or] at nd
    have hne : ky ≠ kx := nd.1.1
    simp only [mapGet]
    by_cases h1 : kx = k
    · have h2 : ¬ ky = k := fun h => hne (h.trans h1.symm)
      simp [h1, h2]
    · simp [h1]
  | trans p1 _ ih1 ih2 =>
    rw [ih1 nd, ih2 ((p1.map Prod.fst).nodup_iff.mp nd)]

/-! ## Claims on the header codec and on the cached headers -/

/-- C5, as stated, fails: a header value that is the single byte `0xff` comes
back from the round trip as the three bytes of U+FFFD. -/
theorem C5_counterexample :
    httpHeaderFromString (httpHeaderToString headerLatin1)
        = ([(ascii "X", some [[0xef, 0xbf, 0xbd]])], none)
      ∧ mapGet (httpHeaderFromString (httpHeaderToString headerLatin1)).1 (ascii "X")
        ≠ mapGet headerLatin1 (ascii "X") := by
  decide

/-- C5, amended: for every header collection with pairwise distinct names whose
names and values are valid UTF-8, `httpHeaderFromString (httpHeaderToString H)`
returns no error and a collection with the entries of `H`: the same names, and
under each name the same values in the same order and multiplicity. -/
theorem C5_round_trip_valid_utf8 (H : Header) (hutf8 : HeaderUTF8 H)
    (hkeys : (H.map Prod.fst).Nodup) :
    (httpHeaderFromString (httpHeaderToString H)).2 = none
      ∧ (httpHeaderFromString (httpHeaderToString H)).1.Perm H
      ∧ ∀ k, mapGet (httpHeaderFromString (httpHeaderToString H)).1 k = mapGet H k := by
  rw [httpHeader_round_trip H hutf8 hkeys]
  refine ⟨rfl, sortedEntries_perm H, fun k => ?_⟩
  exact mapGet_perm (sortedEntries_perm H)
    (((sortedEntries_perm H).map Prod.fst).nodup_iff.mpr hkeys) k

/-- The names and values of the sample collection are valid UTF-8. -/
theorem headerSample_utf8 : HeaderUTF8 headerSample := by
  intro kv hkv
  simp only [headerSample, List.mem_cons, List.mem_singleton, List.not_mem_nil, or_false] at hkv
  rcases hkv with rfl | rfl | rfl
  · refine ⟨⟨"X-Rate".data, by decide⟩, ?_⟩
    intro vs hvs v hv
    simp only [Option.some.injEq] at hvs
    subst hvs
    simp only [List.mem_cons, List.mem_singleton, List.not_mem_nil, or_false] at hv
    rcases hv with rfl | rfl
    · exact ⟨"10".data, by decide⟩
    · exact ⟨"<10>".data, by decide⟩
  · refine ⟨⟨"Set-Cookie".data, by decide⟩, ?_⟩
    intro vs hvs v hv
    simp only [Option.some.injEq] at hvs
    subst hvs
    simp at hv
  · refine ⟨⟨"Age".data, by decide⟩, ?_⟩
    intro vs hvs
    simp at hvs

/-- C5, amended, at a collection with repeated values, an empty list and a nil
list. -/
theorem C5_round_trip_valid_utf8_witness :
    HeaderUTF8 headerSample ∧ (headerSample.map Prod.fst).Nodup
      ∧ (httpHeaderFromString (httpHeaderToString headerSample)).2 = none
      ∧ (httpHeaderFromString (httpHeaderToString headerSample)).1.Perm headerSample
      ∧ ∀ k, mapGet (httpHeaderFromString (httpHeaderToString headerSample)).1 k
          = mapGet headerSample k :=
  ⟨headerSample_utf8, by decide,
    C5_round_trip_valid_utf8 headerSample headerSample_utf8 (by decide)⟩

/-- The headers of a fallback response: `x-src`, followed by the loaded headers
exactly when decoding the header artifact returned an error. -/
theorem handleAll_fallback_header (upstreamHost cachePath : Bytes) (cacheWrite : Bool)
    (env : World) (r : Request) (fs : FS) (e payload content : Bytes)
    (hnew : env.newRequest r.method (upstreamTarget upstreamHost r) = none)
    (hdo : env.doRequest (upstreamRequest upstreamHost r) = .error e)
    (hbody : readFile fs (makeCacheFilePath cachePath r.path false) = some payload)
    (hhdr : readFile fs (makeCacheFilePath cachePath r.path true) = some content) :
    (handleAll upstreamHost cachePath cacheWrite env r fs).1 =
      { status := 200
        header := xSrc :: (if (httpHeaderFromString content).2 = none then []
          else addAll (httpHeaderFromString content).1)
        body := payload } := by
  by_cases h : (httpHeaderFromString content).2 = none <;>
    simp [handleAll, hnew, hdo, hbody, hhdr, h]

/-- C2 at a failing input: the cache directory is the one the handler itself
wrote for `/v1/items` after the upstream answered with body `{"id":5}` and header
`X-Rate: 10`; the header artifact decodes without error to `X-Rate: ["10"]`; and
the fallback response carries `x-src` alone, without `X-Rate: 10`. -/
theorem C2_decoded_headers_not_attached :
    (handleAll (ascii "http://up") (ascii "data") true (worldUp payloadId5) getItems emptyFS).2
        (ascii "data/v1-items.header") = some artifactXRate
      ∧ httpHeaderFromString artifactXRate = ([(ascii "X-Rate", some [ascii "10"])], none)
      ∧ (handleAll (ascii "http://up") (ascii "data") true worldDown getItems
          (handleAll (ascii "http://up") (ascii "data") true (worldUp payloadId5) getItems
            emptyFS).2).1
        = { status := 200, header := [xSrc], body := payloadId5 } := by
  decide

/-- C4 at a failing input: the header artifact `{"A":["x"],"B":"y"}` fails
decoding with a type error, and the fallback response carries the header `A: x`
taken from that artifact next to `x-src`. -/
theorem C4_undecodable_headers_attached :
    (httpHeaderFromString artifactMistyped).2 = some JErr.typeError
      ∧ (handleAll (ascii "http://up") (ascii "data") true worldDown getItems
          (cachedFS artifactMistyped)).1
        = { status := 200, header := [xSrc, (ascii "A", ascii "x")], body := payloadId5 } := by
  decide

end CachedProxy
